import Mathlib

set_option maxHeartbeats 1000000

/-!
Verification development for the openwork repository's agent process/stream
orchestration layer.  The subjects are:

* `apps/desktop/src/main/opencode/stream-parser.ts` (class `StreamParser`,
  the variant with per-chunk cleaning and non-JSON prefix skipping whose
  `feed` is at lines 26-57 and `parseBuffer` at lines 63-146),
* `apps/desktop/src/main/opencode/adapter.ts` (`convertSdkEventToMessage`,
  `OpenCodeAdapter`),
* `apps/desktop/src/main/opencode/server-manager.ts` (`OpenCodeServerManager`).

JavaScript strings are modelled as `List Char`.  The JavaScript builtin
`JSON.parse` (external to the repository) is modelled by the executable
functions `OW.lex` / `OW.pv` / `OW.jparse` below, which implement the
RFC 8259 JSON grammar; JSON values are represented up to their surface
syntax (number and string lexemes are kept verbatim), which is faithful
for the equalities and inequalities proved here because identical lexemes
denote identical JavaScript values and the exhibited distinct lexemes
denote distinct JavaScript values.
-/

namespace OW

/-! ### Stream parser: chunk cleaning (stream-parser.ts lines 29-46) -/

/-- Maximum buffer size, stream-parser.ts line 10: 10 MiB. -/
def MAX_BUFFER_SIZE : Nat := 10 * 1024 * 1024

/-- JSON whitespace, also the whitespace the parser treats as skippable. -/
def wsChar (c : Char) : Bool := c = ' ' || c = '\t' || c = '\n' || c = '\r'

/-- Model of the global replace of CR LF by LF (line 34, first replace). -/
def replaceCRLF : List Char → List Char
  | '\r' :: '\n' :: r => '\n' :: replaceCRLF r
  | c :: r => c :: replaceCRLF r
  | [] => []

/-- Model of the global replace of CR by LF (line 34, second replace). -/
def replaceCR (l : List Char) : List Char :=
  l.map (fun c => if c = '\r' then '\n' else c)

/-- Tail of a CSI escape sequence: consumes characters of the class
matched by the body of the regex at line 37 and then one letter. -/
def csiTail : List Char → Option (List Char)
  | [] => none
  | c :: r =>
    if c.isDigit || c = ';' || c = '?' then csiTail r
    else if c.isAlpha then some r
    else none

/-- Model of the global removal of CSI sequences (line 37). -/
def stripCSIF : Nat → List Char → List Char
  | 0, l => l
  | _, [] => []
  | f + 1, c :: r =>
    if c = '\x1b' then
      match r with
      | '[' :: r2 =>
        match csiTail r2 with
        | some r3 => stripCSIF f r3
        | none => c :: stripCSIF f r
      | _ => c :: stripCSIF f r
    else c :: stripCSIF f r

def stripCSI (l : List Char) : List Char := stripCSIF (l.length + 1) l

/-- Tail of an OSC sequence: non-BEL non-ESC characters then BEL or
ESC backslash, as in the regex at line 40. -/
def oscTail : List Char → Option (List Char)
  | [] => none
  | c :: r =>
    if c = '\x07' then some r
    else if c = '\x1b' then
      match r with
      | '\\' :: r2 => some r2
      | _ => none
    else oscTail r

/-- Model of the global removal of OSC sequences (line 40). -/
def stripOSCF : Nat → List Char → List Char
  | 0, l => l
  | _, [] => []
  | f + 1, c :: r =>
    if c = '\x1b' then
      match r with
      | ']' :: r2 =>
        match oscTail r2 with
        | some r3 => stripOSCF f r3
        | none => c :: stripOSCF f r
      | _ => c :: stripOSCF f r
    else c :: stripOSCF f r

def stripOSC (l : List Char) : List Char := stripOSCF (l.length + 1) l

/-- Character class removed by the control-character replace at line 44:
x00-x08, x0b-x0c, x0e-x1f and x7f. -/
def strippedCtl (c : Char) : Bool :=
  c.toNat ≤ 8 || c.toNat = 11 || c.toNat = 12 ||
  (14 ≤ c.toNat && c.toNat ≤ 31) || c.toNat = 127

def stripCtl (l : List Char) : List Char := l.filter (fun c => !strippedCtl c)

/-- Full cleaning applied to every chunk in `feed` (lines 31-44), in the
order the source applies the replaces. -/
def cleanChunk (chunk : List Char) : List Char :=
  stripCtl (stripOSC (stripCSI (replaceCR (replaceCRLF chunk))))

/-! ### Stream parser: skipNonJsonPrefix (lines 152-262)

The source's loop index `i`, lookback `this.buffer[i-1]` and running
`skipCount` are modelled by recursing over the not-yet-visited suffix
while carrying the absolute index, the previous character and the
counter.  The bound is `min buffer.length 10000` as at line 156. -/

/-- Control character that is not whitespace (line 165). -/
def ctlNonWs (c : Char) : Bool :=
  c.toNat < 32 && c ≠ '\n' && c ≠ '\r' && c ≠ '\t'

/-- Terminal decoration characters (lines 267-277). -/
def isTermDecor (c : Char) : Bool :=
  (0x2500 ≤ c.toNat && c.toNat ≤ 0x25FF) ||
  c = '│' || c = '┌' || c = '┐' || c = '└' || c = '┘' ||
  c = '├' || c = '┤' || c = '┬' || c = '┴' || c = '┼' ||
  c = '─' || c = '◆' || c = '●' || c = '○' || c = '◇'

/-- Scan for a CSI terminator (lines 173-183): at most 48 characters
starting at index i+2, all printable, looking for a letter in the
ranges at-Z or a-z.  Returns the offset and the terminator. -/
def csiScan : Nat → Nat → List Char → Option (Nat × Char)
  | _, _, [] => none
  | 0, _, _ => none
  | f + 1, d, c :: r =>
    if ' ' ≤ c && c ≤ '~' then
      if ('@' ≤ c && c ≤ 'Z') || ('a' ≤ c && c ≤ 'z') then some (d, c)
      else csiScan f (d + 1) r
    else none

/-- Scan a decoration line (lines 190-204): at most 49 characters from
index i+1; succeeds at a newline, fails on a non-decoration character. -/
def decorScan : Nat → Nat → List Char → Option Nat
  | _, _, [] => none
  | 0, _, _ => none
  | f + 1, d, c :: r =>
    if c = '\n' then some d
    else if !isTermDecor c && c ≠ ' ' && c ≠ '\t' && c ≠ '\r' then none
    else decorScan f (d + 1) r

/-- Scan a banner-looking line (lines 219-246): at most 200 characters
from index i; fails on JSON punctuation or unprintable characters;
succeeds at a newline provided zero < length < 200. -/
def bannerScan : Nat → Nat → List Char → Option Nat
  | _, _, [] => none
  | 0, _, _ => none
  | f + 1, d, c :: r =>
    if c = '\n' then (if 0 < d && d < 200 then some d else none)
    else if c = '{' || c = '}' || c = ':' then none
    else if c < ' ' || '~' < c then none
    else bannerScan f (d + 1) r

/-- The main skipping loop of skipNonJsonPrefix.  Arguments: step fuel
(larger than the 10000-iteration bound), the bound, the unvisited
suffix, the absolute index, the previous character, the running
skipCount.  Returns the final skipCount.  Note that the
control-character branch (line 165) precedes the ANSI branch (line 171),
so the latter is unreachable on ESC, exactly as in the source. -/
def skipLoop : Nat → Nat → List Char → Nat → Option Char → Nat → Nat
  | 0, _, _, _, _, sc => sc
  | f + 1, bound, rem, i, prev, sc =>
    if bound ≤ i then sc
    else
      match rem with
      | [] => sc
      | c :: rest =>
        if c = '{' then sc
        else if ctlNonWs c then skipLoop f bound rest (i + 1) (some c) (i + 1)
        else if c = '\x1b' && rest.head? = some '[' then
          match csiScan 48 0 (rest.drop 1) with
          | some (d, t) =>
            skipLoop f bound (rest.drop (d + 2)) (i + d + 3) (some t) (i + d + 3)
          | none => skipLoop f bound rest (i + 1) (some c) sc
        else if isTermDecor c && (i = 0 || prev = some '\n') then
          match decorScan 49 0 rest with
          | some d =>
            skipLoop f bound (rest.drop (d + 1)) (i + d + 2) (some '\n') (i + d + 2)
          | none => skipLoop f bound rest (i + 1) (some c) sc
        else if wsChar c then skipLoop f bound rest (i + 1) (some c) (i + 1)
        else if i = 0 || prev = some '\n' then
          match bannerScan 200 0 (c :: rest) with
          | some d =>
            skipLoop f bound ((c :: rest).drop (d + 1)) (i + d + 1) (some '\n') (i + d + 1)
          | none => sc
        else sc

/-- Model of skipNonJsonPrefix: drop the computed skipCount from the
front of the buffer (line 257). -/
def skipNonJsonHead (buf : List Char) : List Char :=
  buf.drop (skipLoop 10002 (min buf.length 10000) buf 0 none 0)

/-! ### Stream parser: brace-counting scan (parseBuffer's for loop, lines 83-129) -/

/-- Scanner state: in-string flag, escape-pending flag, brace depth and
the index of the opening brace of the current candidate object
(jsonObjStart, `none` standing for -1). -/
structure SSt where
  inStr : Bool
  esc : Bool
  depth : Nat
  start : Option Nat
deriving DecidableEq, Repr

def SSt.init : SSt := ⟨false, false, 0, none⟩

/-- The for loop of parseBuffer: returns the start index and the index
of the matching closing brace of the first complete object, if any. -/
def findObjAux : List Char → Nat → SSt → Option (Nat × Nat)
  | [], _, _ => none
  | c :: rest, i, st =>
    if st.esc then findObjAux rest (i + 1) { st with esc := false }
    else if c = '\\' then findObjAux rest (i + 1) { st with esc := true }
    else if c = '"' then findObjAux rest (i + 1) { st with inStr := !st.inStr }
    else if st.inStr then findObjAux rest (i + 1) st
    else if c = '{' then
      if st.depth = 0 then findObjAux rest (i + 1) { st with depth := 1, start := some i }
      else findObjAux rest (i + 1) { st with depth := st.depth + 1 }
    else if c = '}' then
      if st.depth = 0 then findObjAux rest (i + 1) st
      else if st.depth = 1 then
        match st.start with
        | some s0 => some (s0, i)
        | none => findObjAux rest (i + 1) { st with depth := 0 }
      else findObjAux rest (i + 1) { st with depth := st.depth - 1 }
    else findObjAux rest (i + 1) st

def findObj (buf : List Char) : Option (Nat × Nat) := findObjAux buf 0 SSt.init

/-! ### Stream parser: cleanJsonString (lines 318-401), kept for fidelity -/

/-- First pass of cleanJsonString: strips control characters inside
string literals, keeps structural whitespace outside, returns the
result together with the final in-string flag. -/
def cjsPass : List Char → Bool → Bool → (List Char × Bool)
  | [], inS, _ => ([], inS)
  | c :: r, inS, esc =>
    if esc then
      let p := cjsPass r inS false; (c :: p.1, p.2)
    else if c = '\\' then
      let p := cjsPass r inS true; (c :: p.1, p.2)
    else if c = '"' then
      let p := cjsPass r (!inS) false; (c :: p.1, p.2)
    else if inS then
      if c.toNat ≤ 0x1F || c.toNat = 0x7F then cjsPass r inS false
      else let p := cjsPass r inS false; (c :: p.1, p.2)
    else
      if c.toNat = 0x0A || c.toNat = 0x0D || c.toNat = 0x09 then
        let p := cjsPass r inS false; (c :: p.1, p.2)
      else if 0x1F < c.toNat && c.toNat ≠ 0x7F then
        let p := cjsPass r inS false; (c :: p.1, p.2)
      else cjsPass r inS false

/-- Backwards search for the last structural boundary (lines 382-394),
over the reversed cleaned string, carrying the absolute index. -/
def cjsBack : List Char → Int → Option Int
  | [], _ => none
  | c :: rrev, i =>
    if c = '}' || c = ']' || c = ',' then some i
    else if c = '{' || c = '[' then some (i - 1)
    else cjsBack rrev (i - 1)

/-- Model of cleanJsonString. -/
def cleanJsonString (s : List Char) : List Char :=
  let p := cjsPass s false false
  let cleaned := p.1
  if p.2 then
    let lastValid : Int :=
      (cjsBack cleaned.reverse ((cleaned.length : Int) - 1)).getD
        ((cleaned.length : Int) - 1)
    if 0 < lastValid then cleaned.take (lastValid + 1).toNat else cleaned
  else cleaned

/-- Model of String.trim as used on brace-delimited candidates (every
candidate handed to parseJsonObject begins with an opening brace and
ends with a closing brace, so only ASCII whitespace is relevant). -/
def trimWs (l : List Char) : List Char :=
  ((l.dropWhile (fun c => wsChar c)).reverse.dropWhile (fun c => wsChar c)).reverse

/-! ### Model of the JavaScript JSON.parse builtin

Modelled from the spec: `tryParseJson` calls the JavaScript builtin
`JSON.parse`, which is external to the repository; it is modelled here
by an RFC 8259 lexer and recursive-descent token parser.  Number
lexing is maximal-munch over the number alphabet followed by a shape
check, which coincides with JavaScript's behaviour on every input where
either succeeds, because in any successful parse a number token is
never directly followed by another character of the number alphabet. -/

/-- JSON values, with number and string lexemes kept verbatim. -/
inductive JsonValue where
  | null : JsonValue
  | bool : Bool → JsonValue
  | num : List Char → JsonValue
  | str : List Char → JsonValue
  | arr : List JsonValue → JsonValue
  | obj : List (List Char × JsonValue) → JsonValue

inductive JTok where
  | lbrace | rbrace | lbrack | rbrack | colon | comma
  | tru | fls | nul
  | str : List Char → JTok
  | num : List Char → JTok
deriving DecidableEq, Repr

def escOk (c : Char) : Bool :=
  c = '"' || c = '\\' || c = '/' || c = 'b' || c = 'f' || c = 'n' || c = 'r' || c = 't'

def hexDig (c : Char) : Bool :=
  c.isDigit || ('a' ≤ c && c ≤ 'f') || ('A' ≤ c && c ≤ 'F')

def strCharOk (c : Char) : Bool := 0x20 ≤ c.toNat && c ≠ '"' && c ≠ '\\'

/-- Lex the inside of a string literal (after the opening quote),
returning the raw lexeme and the rest after the closing quote. -/
def lexStr : List Char → Option (List Char × List Char)
  | [] => none
  | c :: r =>
    if c = '"' then some ([], r)
    else if c = '\\' then
      match r with
      | [] => none
      | c2 :: r2 =>
        if escOk c2 then (lexStr r2).map (fun p => ('\\' :: c2 :: p.1, p.2))
        else if c2 = 'u' then
          match r2 with
          | a :: b :: d :: e :: r3 =>
            if hexDig a && hexDig b && hexDig d && hexDig e then
              (lexStr r3).map (fun p => ('\\' :: 'u' :: a :: b :: d :: e :: p.1, p.2))
            else none
          | _ => none
        else none
    else if strCharOk c then (lexStr r).map (fun p => (c :: p.1, p.2)) else none

def numClass (c : Char) : Bool :=
  c.isDigit || c = '-' || c = '+' || c = '.' || c = 'e' || c = 'E'

def dropDigits (l : List Char) : List Char := l.dropWhile Char.isDigit

/-- Exponent part of the JSON number grammar, must consume everything. -/
def numExpPart : List Char → Bool
  | [] => true
  | c :: r =>
    if c = 'e' || c = 'E' then
      let r1 := match r with
        | s :: r2 => if s = '+' || s = '-' then r2 else s :: r2
        | [] => []
      match r1 with
      | d :: r2 => d.isDigit && (dropDigits r2).isEmpty
      | [] => false
    else false

/-- Fraction-then-exponent part of the JSON number grammar. -/
def numFrac : List Char → Bool
  | '.' :: r =>
    match r with
    | d :: r2 => d.isDigit && numExpPart (dropDigits r2)
    | [] => false
  | l => numExpPart l

/-- Shape check for a full JSON number lexeme. -/
def numShapeOk (l : List Char) : Bool :=
  let l1 := match l with | '-' :: r => r | _ => l
  match l1 with
  | '0' :: r => numFrac r
  | c :: r => c.isDigit && numFrac (dropDigits r)
  | [] => false

/-- Lex one token given its first character and the rest. -/
def lexOne (c : Char) (r : List Char) : Option (JTok × List Char) :=
  if c = '{' then some (.lbrace, r)
  else if c = '}' then some (.rbrace, r)
  else if c = '[' then some (.lbrack, r)
  else if c = ']' then some (.rbrack, r)
  else if c = ':' then some (.colon, r)
  else if c = ',' then some (.comma, r)
  else if c = '"' then (lexStr r).map (fun p => (.str p.1, p.2))
  else if c = 't' then
    match r with | 'r' :: 'u' :: 'e' :: r2 => some (.tru, r2) | _ => none
  else if c = 'f' then
    match r with | 'a' :: 'l' :: 's' :: 'e' :: r2 => some (.fls, r2) | _ => none
  else if c = 'n' then
    match r with | 'u' :: 'l' :: 'l' :: r2 => some (.nul, r2) | _ => none
  else if numClass c then
    let lx := c :: r.takeWhile numClass
    if numShapeOk lx then some (.num lx, r.dropWhile numClass) else none
  else none

def dropWs (l : List Char) : List Char := l.dropWhile (fun c => wsChar c)

/-- Tokenize a whole string (fuel-recursive; one unit per token). -/
def lexAll : Nat → List Char → Option (List JTok)
  | 0, _ => none
  | f + 1, s =>
    match dropWs s with
    | [] => some []
    | c :: r =>
      match lexOne c r with
      | none => none
      | some (t, r2) =>
        match lexAll f r2 with
        | none => none
        | some ts => some (t :: ts)

def lex (s : List Char) : Option (List JTok) := lexAll (s.length + 1) s

mutual

/-- Parse one JSON value from a token list. -/
def pv : Nat → List JTok → Option (JsonValue × List JTok)
  | 0, _ => none
  | f + 1, ts =>
    match ts with
    | .nul :: r => some (.null, r)
    | .tru :: r => some (.bool true, r)
    | .fls :: r => some (.bool false, r)
    | .num l :: r => some (.num l, r)
    | .str l :: r => some (.str l, r)
    | .lbrack :: .rbrack :: r => some (.arr [], r)
    | .lbrack :: r =>
      match pArrItems f r with
      | some (es, r2) => some (.arr es, r2)
      | none => none
    | .lbrace :: .rbrace :: r => some (.obj [], r)
    | .lbrace :: r =>
      match pObjItems f r with
      | some (ms, r2) => some (.obj ms, r2)
      | none => none
    | _ => none

/-- Parse the items of a nonempty array, including the closing bracket. -/
def pArrItems : Nat → List JTok → Option (List JsonValue × List JTok)
  | 0, _ => none
  | f + 1, ts =>
    match pv f ts with
    | none => none
    | some (v, r) =>
      match r with
      | .comma :: r2 =>
        match pArrItems f r2 with
        | some (es, r3) => some (v :: es, r3)
        | none => none
      | .rbrack :: r2 => some ([v], r2)
      | _ => none

/-- Parse the members of a nonempty object, including the closing brace. -/
def pObjItems : Nat → List JTok → Option (List (List Char × JsonValue) × List JTok)
  | 0, _ => none
  | f + 1, ts =>
    match ts with
    | .str k :: .colon :: r =>
      match pv f r with
      | none => none
      | some (v, r1) =>
        match r1 with
        | .comma :: r2 =>
          match pObjItems f r2 with
          | some (ms, r3) => some ((k, v) :: ms, r3)
          | none => none
        | .rbrace :: r2 => some ([(k, v)], r2)
        | _ => none
    | _ => none

end

/-- Model of JSON.parse: tokenize, parse one value, require that no
token remains. -/
def jparse (s : List Char) : Option JsonValue :=
  match lex s with
  | none => none
  | some ts =>
    match pv (2 * ts.length + 2) ts with
    | some (v, []) => some v
    | _ => none

/-! ### Stream parser: buffer state machine (feed and parseBuffer) -/

/-- Observable parser state: the buffer, the emitted message events (as
parsed JSON values) and the number of emitted error events. -/
structure PSt where
  buffer : List Char
  msgs : List JsonValue
  errs : Nat

def initPSt : PSt := ⟨[], [], 0⟩

/-- Model of parseJsonObject (lines 282-307): trim, try JSON.parse,
on failure clean once and retry. -/
def parseJsonObjectM (cand : List Char) (st : PSt) : PSt :=
  let t := trimWs cand
  if t.isEmpty then st
  else
    match jparse t with
    | some v => { st with msgs := st.msgs ++ [v] }
    | none =>
      let cl := cleanJsonString t
      if cl ≠ t then
        match jparse cl with
        | some v => { st with msgs := st.msgs ++ [v] }
        | none => st
      else st

/-- The while loop of parseBuffer (lines 73-145); fuel is the
MAX_ITERATIONS cap of 100000, consumed once per parsed object. -/
def pbLoop : Nat → PSt → PSt
  | 0, st => st
  | f + 1, st =>
    if st.buffer.isEmpty then st
    else
      let b := skipNonJsonHead st.buffer
      match findObj b with
      | some (s0, i) =>
        let cand := (b.drop s0).take (i + 1 - s0)
        let st1 := parseJsonObjectM cand { st with buffer := b.drop (i + 1) }
        pbLoop f st1
      | none =>
        if MAX_BUFFER_SIZE < b.length then { st with buffer := [], errs := st.errs + 1 }
        else { st with buffer := b }

/-- Model of parseBuffer (line 66 initial skip, then the loop). -/
def parseBuffer (st : PSt) : PSt :=
  pbLoop 100000 { st with buffer := skipNonJsonHead st.buffer }

/-- Model of feed (lines 26-57): clean the chunk, append, parse. -/
def feed (st : PSt) (chunk : List Char) : PSt :=
  parseBuffer { st with buffer := st.buffer ++ cleanChunk chunk }

def feedAll (st : PSt) (chunks : List (List Char)) : PSt := chunks.foldl feed st

/-! ### Proof-layer relations for the stream parser -/

/-- The DEL character, the one character legal inside JSON strings that
the chunk cleaning at line 44 removes. -/
def delChar : Char := '\x7f'

def allWs (l : List Char) : Prop := ∀ c ∈ l, wsChar c = true

/-- Relation between a string and the concatenation of the cleanings of
its chunks, when the cleaning only rewrites carriage returns: a CR LF
pair inside one chunk collapses to LF, any other CR becomes LF, and
every other character is kept. -/
inductive CleanRel : List Char → List Char → Prop where
  | nil : CleanRel [] []
  | crlf : ∀ {s t}, CleanRel s t → CleanRel ('\r' :: '\n' :: s) ('\n' :: t)
  | cr : ∀ {s t}, CleanRel s t → CleanRel ('\r' :: s) ('\n' :: t)
  | keep : ∀ {c s t}, c ≠ '\r' → CleanRel s t → CleanRel (c :: s) (c :: t)

/-- Well-formed inner lexeme of a JSON string literal, as consumed by
`lexStr`. -/
inductive StrInner : List Char → Prop where
  | nil : StrInner []
  | uch : ∀ {c s}, strCharOk c = true → StrInner s → StrInner (c :: s)
  | esc : ∀ {c s}, escOk c = true → StrInner s → StrInner ('\\' :: c :: s)
  | uesc : ∀ {a b d e s}, hexDig a = true → hexDig b = true → hexDig d = true →
      hexDig e = true → StrInner s → StrInner ('\\' :: 'u' :: a :: b :: d :: e :: s)

/-- Character span of a token in the source text. -/
def tokText : JTok → List Char
  | .lbrace => ['{']
  | .rbrace => ['}']
  | .lbrack => ['[']
  | .rbrack => [']']
  | .colon => [':']
  | .comma => [',']
  | .tru => ['t', 'r', 'u', 'e']
  | .fls => ['f', 'a', 'l', 's', 'e']
  | .nul => ['n', 'u', 'l', 'l']
  | .str l => '"' :: (l ++ ['"'])
  | .num l => l

/-- Decomposition of a string into whitespace-preceded token spans,
followed by a residue. -/
inductive TSpanR : List JTok → List Char → List Char → Prop where
  | nil : ∀ {r}, TSpanR [] r r
  | cons : ∀ {w t ts s r}, allWs w → TSpanR ts s r →
      TSpanR (t :: ts) (w ++ tokText t ++ s) r

/-- Well-formedness of a token as produced by the lexer. -/
def wfTok : JTok → Prop
  | .str l => StrInner l
  | .num l => l ≠ [] ∧ (∀ c ∈ l, numClass c = true) ∧ numShapeOk l = true
  | _ => True

def headChar (t : JTok) : Char :=
  match tokText t with
  | c :: _ => c
  | [] => ' '

/-- Adjacent-pair sanity: a number token is never followed by a token
whose first character could extend the number lexeme. -/
def sane2 (a b : JTok) : Prop := ∀ l, a = JTok.num l → numClass (headChar b) = false

def NumSane (ts : List JTok) : Prop := List.Chain' sane2 ts

/-- Scanner path relation: stepping `findObjAux` through the listed
characters takes the first state to the second without firing the
extraction branch and without touching the recorded start index.  One
constructor per non-extracting branch of the scanner. -/
inductive Steps : SSt → List Char → SSt → Prop where
  | nil : ∀ {st}, Steps st [] st
  | esc : ∀ {st c cs st'}, st.esc = true →
      Steps { st with esc := false } cs st' → Steps st (c :: cs) st'
  | bslash : ∀ {st cs st'}, st.esc = false →
      Steps { st with esc := true } cs st' → Steps st ('\\' :: cs) st'
  | quote : ∀ {st cs st'}, st.esc = false →
      Steps { st with inStr := !st.inStr } cs st' → Steps st ('"' :: cs) st'
  | strOther : ∀ {st c cs st'}, st.esc = false → st.inStr = true → c ≠ '\\' → c ≠ '"' →
      Steps st cs st' → Steps st (c :: cs) st'
  | openN : ∀ {st cs st'}, st.esc = false → st.inStr = false → st.depth ≠ 0 →
      Steps { st with depth := st.depth + 1 } cs st' → Steps st ('{' :: cs) st'
  | closeHigh : ∀ {st cs st'}, st.esc = false → st.inStr = false → 2 ≤ st.depth →
      Steps { st with depth := st.depth - 1 } cs st' → Steps st ('}' :: cs) st'
  | closeZero : ∀ {st cs st'}, st.esc = false → st.inStr = false → st.depth = 0 →
      Steps st cs st' → Steps st ('}' :: cs) st'
  | other : ∀ {st c cs st'}, st.esc = false → st.inStr = false → c ≠ '\\' → c ≠ '"' →
      c ≠ '{' → c ≠ '}' → Steps st cs st' → Steps st (c :: cs) st'

/-- Shape of a complete top-level object text as the scanner sees it:
an opening brace, a body the scanner traverses neutrally at depth one,
and the matching closing brace. -/
def CoreOK (core : List Char) : Prop :=
  ∃ body, core = '{' :: body ++ ['}'] ∧
    ∀ p : Option Nat, Steps ⟨false, false, 1, p⟩ body ⟨false, false, 1, p⟩

/-- Lexable decomposition of a string: whitespace-separated well-formed
token spans followed by a whitespace residue, where the string following
a number token never begins with a character of the number alphabet
(the maximal-munch boundary the lexer itself guarantees). -/
inductive LexSpan : List JTok → List Char → Prop where
  | nil : ∀ {r}, allWs r → LexSpan [] r
  | cons : ∀ {w t ts s}, allWs w → wfTok t →
      (∀ l, t = JTok.num l → ∀ c2, s.head? = some c2 → numClass c2 = false) →
      LexSpan ts s → LexSpan (t :: ts) (w ++ tokText t ++ s)

/-- Tight variant of `LexSpan`: the residue after the last token is
empty, so the string ends exactly at the last token. -/
inductive LexSpanT : List JTok → List Char → Prop where
  | nil : LexSpanT [] []
  | cons : ∀ {w t ts s}, allWs w → wfTok t →
      (∀ l, t = JTok.num l → ∀ c2, s.head? = some c2 → numClass c2 = false) →
      LexSpanT ts s → LexSpanT (t :: ts) (w ++ tokText t ++ s)

/-- A token list whose every whitespace-interleaved rendering the brace
scanner traverses neutrally at any positive depth. -/
def PreNeutral (pre : List JTok) : Prop :=
  ∀ s, TSpanR pre s [] → ∀ d : Nat, 1 ≤ d → ∀ p : Option Nat,
    Steps ⟨false, false, d, p⟩ s ⟨false, false, d, p⟩

/-! ### Event-to-message adapter (adapter.ts)

`convertSdkEventToMessage` receives duck-typed SDK events; the model
fixes a record carrying exactly the fields the function reads.  Tool
inputs are kept as a small closed payload type: the adapter only ever
inspects a to-do list or a question list inside them. -/

structure TodoItem where
  id : String
  content : String
  status : String
deriving DecidableEq, Repr

inductive ToolInput where
  | empty : ToolInput
  | todos : List TodoItem → ToolInput
  | question : String → ToolInput
  | other : String → ToolInput
deriving DecidableEq, Repr

/-- Part payload of a message.part.updated event, with the fields
convertSdkEventToMessage reads. -/
structure SdkPart where
  id : String
  sessionID : String
  messageID : String
  ptype : String
  text : String
  timeEnd : Option Nat
  callID : String
  tool : String
  status : String
  input : ToolInput
  output : Option String
  error : Option String
  reason : String
deriving DecidableEq, Repr

structure SdkEvent where
  etype : String
  part : Option SdkPart
  propsSessionID : Option String
  errorMsg : Option String
deriving DecidableEq, Repr

/-- Normalized messages (the OpenCodeMessage shapes constructed by
convertSdkEventToMessage, with the payload fields the adapter uses). -/
inductive NMsg where
  | text : String → String → String → NMsg              -- sessionID, partId, content
  | toolCall : String → String → String → ToolInput → NMsg  -- sessionID, partId, tool, input
  | toolResult : String → String → String → String → Bool → NMsg
      -- sessionID, partId, callID, output, isError
  | stepStart : String → String → NMsg                  -- sessionID, partId
  | stepFinish : String → String → String → NMsg        -- sessionID, partId, reason
  | err : String → NMsg
deriving DecidableEq, Repr

/-- The three dedup sets of part identifiers (adapter.ts lines 346-351). -/
structure DedupSets where
  calls : List String
  results : List String
  texts : List String
deriving DecidableEq, Repr

def emptySets : DedupSets := ⟨[], [], []⟩

/-- Model of convertSdkEventToMessage (adapter.ts lines 98-327).  The
text-completion test mirrors the JavaScript truthiness of
`textPart.time?.end`: absent or zero counts as incomplete. -/
def convertSdkEventToMessage (ev : SdkEvent) (cur : Option String) (sets : DedupSets) :
    Option NMsg × DedupSets :=
  if ev.etype = "server.connected" || ev.etype = "server.heartbeat" ||
      ev.etype = "message.updated" || ev.etype = "session.created" then
    (none, sets)
  else if h : ev.etype = "message.part.updated" ∧ ev.part.isSome then
    let part := ev.part.get h.2
    if (match cur with | some c => part.sessionID != c | none => false : Bool) then
      (none, sets)
    else if part.ptype = "text" then
      if part.timeEnd.getD 0 = 0 then (none, sets)
      else if part.id ∈ sets.texts then (none, sets)
      else (some (.text part.sessionID part.id part.text),
            { sets with texts := part.id :: sets.texts })
    else if part.ptype = "tool" then
      if part.status = "completed" || part.status = "error" then
        if part.id ∈ sets.results then (none, sets)
        else (some (.toolResult part.sessionID part.id part.callID
                (if part.status = "completed" then part.output.getD ""
                 else part.error.getD "")
                (part.status = "error")),
              { sets with results := part.id :: sets.results })
      else
        if part.id ∈ sets.calls then (none, sets)
        else (some (.toolCall part.sessionID part.id part.tool part.input),
              { sets with calls := part.id :: sets.calls })
    else if part.ptype = "step-start" then
      (some (.stepStart part.sessionID part.id), sets)
    else if part.ptype = "step-finish" then
      (some (.stepFinish part.sessionID part.id part.reason), sets)
    else (none, sets)
  else if ev.etype = "session.status" then (none, sets)
  else if (match ev.propsSessionID, cur with
            | some sid, some c => ev.etype != "message.part.updated" && sid != c
            | _, _ => false : Bool) then
    (none, sets)
  else if ev.etype = "session.error" then
    (some (.err (ev.errorMsg.getD "Unknown error")), sets)
  else (none, sets)

/-- Running convertSdkEventToMessage over a sequence of events with a
fixed current session, threading the dedup sets, collecting the
emitted normalized messages. -/
def convertAll (cur : Option String) (sets : DedupSets) : List SdkEvent → List NMsg × DedupSets
  | [] => ([], sets)
  | ev :: rest =>
    let r := convertSdkEventToMessage ev cur sets
    let r2 := convertAll cur r.2 rest
    ((match r.1 with | some m => [m] | none => []) ++ r2.1, r2.2)

def isCallMsgFor (p : String) : NMsg → Bool
  | .toolCall _ pid _ _ => pid == p
  | _ => false

def isResMsgFor (p : String) : NMsg → Bool
  | .toolResult _ pid _ _ _ => pid == p
  | _ => false

def isTextMsgFor (p : String) : NMsg → Bool
  | .text _ pid _ => pid == p
  | _ => false

/-- Session acceptance test of convertSdkEventToMessage for part
events (line 129): dropped only when a current session exists and the
part names a different one. -/
def partSessionOk (cur : Option String) (part : SdkPart) : Bool :=
  !(match cur with | some c => part.sessionID != c | none => false)

/-- An event the tool branch of convertSdkEventToMessage classifies as
a tool call (status neither completed nor error) for part id p. -/
def isCallEventFor (cur : Option String) (p : String) (ev : SdkEvent) : Bool :=
  ev.etype == "message.part.updated" &&
  (match ev.part with
   | some part =>
     part.id == p && part.ptype == "tool" &&
     !(part.status == "completed" || part.status == "error") &&
     partSessionOk cur part
   | none => false)

/-- An event the tool branch classifies as a tool result for part id p. -/
def isResEventFor (cur : Option String) (p : String) (ev : SdkEvent) : Bool :=
  ev.etype == "message.part.updated" &&
  (match ev.part with
   | some part =>
     part.id == p && part.ptype == "tool" &&
     (part.status == "completed" || part.status == "error") &&
     partSessionOk cur part
   | none => false)

/-- An event the text branch would emit for part id p: complete (the
end timestamp is present and truthy) and session-accepted. -/
def isTextEventFor (cur : Option String) (p : String) (ev : SdkEvent) : Bool :=
  ev.etype == "message.part.updated" &&
  (match ev.part with
   | some part =>
     part.id == p && part.ptype == "text" &&
     part.timeEnd.getD 0 != 0 &&
     partSessionOk cur part
   | none => false)

/-- Modelled from the spec: Completion Enforcer state (§4.3); the file
completion.ts is not under src/, only its caller adapter.ts is. -/
structure EnfState where
  toolsUsed : Bool
  completionDetected : Bool
  todos : List TodoItem
  pendingContinuation : Bool
deriving DecidableEq, Repr

def EnfState.reset : EnfState := ⟨false, false, [], false⟩

/-- Modelled from the spec: handleStepFinish decision policy (§4.3).
Returns (decided complete, continuation dispatched, new state).  The
residual case (tools used, nothing pending, no completion detected) is
left implicit by the spec and modelled as completing; no theorem below
depends on that choice. -/
def enfHandleStepFinish (reason : String) (st : EnfState) : Bool × Bool × EnfState :=
  if reason = "tool_use" then (false, false, st)
  else if st.completionDetected then (true, false, st)
  else if st.todos.any (fun t => t.status ≠ "completed") || !st.toolsUsed then
    (false, true, { st with pendingContinuation := true })
  else (true, false, st)

/-- Adapter state (the fields of class OpenCodeAdapter, lines 329-351).
`eventController` is declared at line 345 and never assigned anywhere
in the class, which the model preserves. -/
structure AdState where
  sessionId : Option String
  messageTaskId : Option String
  messages : List String
  hasCompleted : Bool
  isDisposed : Bool
  wasInterrupted : Bool
  enf : EnfState
  currentModelId : Option String
  waitingTimer : Bool
  hasReceivedFirstTool : Bool
  eventController : Option Unit
  sets : DedupSets
deriving DecidableEq, Repr

/-- A fresh adapter as built by the constructor (lines 358-368). -/
def initAd : AdState :=
  ⟨none, none, [], false, false, false, EnfState.reset, none, false, false, none, emptySets⟩

/-- Observable outputs: emitted events and remote-call effects. -/
inductive AdOut where
  | evMessage : NMsg → AdOut
  | evToolUse : String → AdOut
  | evToolResult : String → AdOut
  | evPermissionRequest : String → AdOut
  | evProgress : String → AdOut
  | evComplete : String → Option String → AdOut   -- status, error
  | evError : String → AdOut
  | evTodoUpdate : List TodoItem → AdOut
  | fxSessionAbort : AdOut
  | fxPromptSend : AdOut
  | fxAbortStream : AdOut
  | fxRemoveAllListeners : AdOut
  | fxSessionCreate : AdOut
deriving DecidableEq, Repr

/-- Model of OpenCodeAdapter.handleMessage (adapter.ts lines 718-852).
The 500 ms waiting-transition timer is modelled as an armed flag; the
enforcer's continuation dispatch (spec §4.3) appears as a
fxPromptSend effect. -/
def handleMessage (m : NMsg) (st : AdState) : AdState × List AdOut :=
  match m with
  | .stepStart sid _ =>
    let st := { st with sessionId := some sid }
    ({ st with waitingTimer := true }, [.evProgress "connecting"])
  | .text sid _ content =>
    let st := if st.sessionId = none then { st with sessionId := some sid } else st
    let st := if content ≠ "" then { st with messages := st.messages ++ [content] } else st
    (st, [.evMessage m])
  | .toolCall _ _ tool input =>
    let st :=
      if !st.hasReceivedFirstTool then
        { st with hasReceivedFirstTool := true, waitingTimer := false }
      else st
    let st := { st with enf := { st.enf with toolsUsed := true } }
    let st :=
      if tool = "complete_task" || tool.endsWith "_complete_task" then
        { st with enf := { st.enf with completionDetected := true } }
      else st
    let (st, todoOuts) :=
      if tool = "todowrite" || tool.endsWith "_todowrite" then
        match input with
        | .todos items =>
          if items ≠ [] then
            ({ st with enf := { st.enf with todos := items } }, [AdOut.evTodoUpdate items])
          else (st, [])
        | _ => (st, [])
      else (st, [])
    let outs := todoOuts ++ [AdOut.evMessage m, AdOut.evToolUse tool, AdOut.evProgress "tool-use"]
    let outs :=
      if tool = "AskUserQuestion" then
        match input with
        | .question q => outs ++ [AdOut.evPermissionRequest q]
        | _ => outs
      else outs
    (st, outs)
  | .toolResult _ _ _ output _ =>
    (st, [.evMessage m, .evToolResult output])
  | .stepFinish _ _ reason =>
    if reason = "error" then
      if !st.hasCompleted then
        ({ st with hasCompleted := true }, [.evComplete "error" (some "Task failed")])
      else (st, [])
    else
      let (isC, contD, enf') := enfHandleStepFinish reason st.enf
      let st := { st with enf := enf' }
      let contOuts := if contD then [AdOut.fxPromptSend] else []
      if isC ∧ !st.hasCompleted then
        ({ st with hasCompleted := true }, contOuts ++ [AdOut.evComplete "success" none])
      else (st, contOuts)
  | .err msg =>
    ({ st with hasCompleted := true },
     [.evComplete "error" (some (if msg = "" then "Unknown error" else msg))])

/-- One pull of the event-consumption loop (processEventStream, lines
524-548): a disposed adapter drops the event without converting it;
otherwise the event is converted (threading the dedup sets) and any
resulting message is handled. -/
def processEvent (st : AdState) (ev : SdkEvent) : AdState × List AdOut :=
  if st.isDisposed then (st, [])
  else
    let r := convertSdkEventToMessage ev st.sessionId st.sets
    let st := { st with sets := r.2 }
    match r.1 with
    | some m => handleMessage m st
    | none => (st, [])

def processEvents (st : AdState) : List SdkEvent → AdState × List AdOut
  | [] => (st, [])
  | ev :: rest =>
    let r1 := processEvent st ev
    let r2 := processEvents r1.1 rest
    (r2.1, r1.2 ++ r2.2)

/-- Model of cancelTask (lines 585-604).  The event-stream abort at
lines 600-603 is guarded on `eventController`, which is never assigned,
so it never fires. -/
def cancelTask (st : AdState) : AdState × List AdOut :=
  let st := { st with hasCompleted := true, wasInterrupted := true }
  let outs := if st.sessionId.isSome then [AdOut.fxSessionAbort] else []
  let outs := outs ++ (if st.eventController.isSome then [AdOut.fxAbortStream] else [])
  ({ st with eventController := none }, outs)

/-- Model of interruptTask (lines 609-621). -/
def interruptTask (st : AdState) : AdState × List AdOut :=
  let st := { st with wasInterrupted := true }
  (st, if st.sessionId.isSome then [AdOut.fxSessionAbort] else [])

/-- Model of dispose (lines 647-679). -/
def dispose (st : AdState) : AdState × List AdOut :=
  if st.isDisposed then (st, [])
  else
    let outs := (if st.eventController.isSome then [AdOut.fxAbortStream] else []) ++
      [AdOut.fxRemoveAllListeners]
    ({ st with
        isDisposed := true
        eventController := none
        sessionId := none
        messageTaskId := none
        messages := []
        hasCompleted := true
        currentModelId := none
        hasReceivedFirstTool := false
        waitingTimer := false }, outs)

inductive StartErr where
  | disposed
  | cliNotFound
deriving DecidableEq, Repr

/-- Model of the synchronous head of startTask (lines 403-456): the
disposed guard at lines 404-407 throws before anything is touched, the
CLI guard at lines 409-413 throws before anything is touched, and
otherwise the per-task state is reset and a session is created.  The
later asynchronous steps (prompt dispatch) are beyond the claims. -/
def startTask (st : AdState) (cliInstalled : Bool) (taskId : String) :
    Except StartErr (AdState × List AdOut) :=
  if st.isDisposed then .error .disposed
  else if !cliInstalled then .error .cliNotFound
  else
    let st := { st with
                messageTaskId := some taskId
                sessionId := none
                messages := []
                hasCompleted := false
                wasInterrupted := false
                enf := EnfState.reset
                hasReceivedFirstTool := false
                isDisposed := false
                sets := emptySets
                waitingTimer := false }
    .ok (st, [AdOut.fxSessionCreate])

/-! ### Server process manager (server-manager.ts) -/

structure Proc where
  pid : Nat
  killed : Bool
deriving DecidableEq, Repr

structure MgrState where
  serverProcess : Option Proc
  serverPort : Option Nat
  isStarting : Bool
  startupTimeout : Bool
  outputBuffer : List Char
deriving DecidableEq, Repr

def initMgr : MgrState := ⟨none, none, false, false, []⟩

inductive MgrEvent where
  | ready : List Char → Nat → MgrEvent   -- baseUrl, port
  | error : String → MgrEvent
  | exit : Option Int → Option String → MgrEvent
  | spawn : Nat → MgrEvent
  | kill : Nat → MgrEvent
deriving DecidableEq, Repr

inductive StartReject where
  | alreadyRunning
  | alreadyStarting
deriving DecidableEq, Repr

/-- Model of the synchronous part of start (lines 39-95): the two
guards, then the spawn with isStarting set and the output buffer
cleared.  The returned promise resolves with the baseUrl of the first
subsequently emitted ready event (lines 96-103). -/
def startMgr (st : MgrState) (newPid : Nat) : Except StartReject (MgrState × List MgrEvent) :=
  if st.serverProcess.isSome then .error .alreadyRunning
  else if st.isStarting then .error .alreadyStarting
  else
    .ok ({ st with
            isStarting := true
            outputBuffer := []
            serverProcess := some ⟨newPid, false⟩
            startupTimeout := true },
         [.spawn newPid])

def natToChars (n : Nat) : List Char := (toString n).data

/-- JavaScript regex whitespace class, restricted to the ASCII members
(the Unicode space code points cannot appear in the matched patterns). -/
def jsWs (c : Char) : Bool :=
  c = ' ' || c = '\t' || c = '\n' || c = '\r' || c = '\x0b' || c = '\x0c'

def lowEq (a b : Char) : Bool := a.toLower = b.toLower

/-- Case-insensitive literal match, returning the rest. -/
def matchCI : List Char → List Char → Option (List Char)
  | [], l => some l
  | _, [] => none
  | p :: ps, c :: cs => if lowEq p c then matchCI ps cs else none

def natOfDigits (ds : List Char) : Nat :=
  ds.foldl (fun n c => n * 10 + (c.toNat - 48)) 0

/-- Pattern 1 at a fixed position (line 182): http or https, colon
slash slash, one or more non-slash non-colon characters, a colon, one
or more digits (the captured port). -/
def p1At (l : List Char) : Option Nat :=
  match l with
  | 'h' :: 't' :: 't' :: 'p' :: r =>
    let afterScheme : Option (List Char) :=
      match r with
      | 's' :: ':' :: '/' :: '/' :: r2 => some r2
      | ':' :: '/' :: '/' :: r2 => some r2
      | _ => none
    match afterScheme with
    | none => none
    | some r3 =>
      let host := r3.takeWhile (fun c => c ≠ '/' && c ≠ ':')
      let rest := r3.dropWhile (fun c => c ≠ '/' && c ≠ ':')
      if host.isEmpty then none
      else
        match rest with
        | ':' :: r4 =>
          let ds := r4.takeWhile Char.isDigit
          if ds.isEmpty then none else some (natOfDigits ds)
        | _ => none
  | _ => none

def searchP1 : List Char → Option Nat
  | [] => none
  | c :: r =>
    match p1At (c :: r) with
    | some n => some n
    | none => searchP1 r

/-- Tail of pattern 2 after the alternation: optional whitespace, an
optional colon, optional whitespace, one or more digits. -/
def p2Tail (l : List Char) : Option Nat :=
  let r := l.dropWhile jsWs
  let r := match r with | ':' :: r2 => r2.dropWhile jsWs | _ => r
  let ds := r.takeWhile Char.isDigit
  if ds.isEmpty then none else some (natOfDigits ds)

/-- Backtracking over the greedy host run of pattern 2. -/
def tryHostSplits : Nat → List Char → Option Nat
  | 0, _ => none
  | k + 1, r =>
    match p2Tail (r.drop (k + 1)) with
    | some n => some n
    | none => tryHostSplits k r

/-- Pattern 2 at a fixed position (line 183), case-insensitive:
listening on, then either an http URL host or the word port, then the
tail. -/
def p2At (l : List Char) : Option Nat :=
  match matchCI ("listening on ".data) l with
  | none => none
  | some r =>
    let alt1 : Option Nat :=
      match matchCI ("http://".data) r with
      | none => none
      | some r2 =>
        let m := r2.takeWhile (fun c => c ≠ '/' && c ≠ ':')
        if m.isEmpty then none else tryHostSplits m.length r2
    match alt1 with
    | some n => some n
    | none =>
      match matchCI ("port".data) r with
      | none => none
      | some r2 => p2Tail r2

def searchP2 : List Char → Option Nat
  | [] => none
  | c :: r =>
    match p2At (c :: r) with
    | some n => some n
    | none => searchP2 r

/-- Lazy tail of pattern 3: the shortest run of non-newline characters
up to a colon followed by at least one digit. -/
def p3Tail : List Char → Option Nat
  | [] => none
  | c :: r =>
    if c = ':' then
      let ds := r.takeWhile Char.isDigit
      if !ds.isEmpty then some (natOfDigits ds) else p3Tail r
    else if c = '\n' then none
    else p3Tail r

/-- Pattern 3 at a fixed position (line 184), case-insensitive:
running at, a lazy gap, a colon, digits. -/
def p3At (l : List Char) : Option Nat :=
  match matchCI ("running at".data) l with
  | none => none
  | some r => p3Tail r

def searchP3 : List Char → Option Nat
  | [] => none
  | c :: r =>
    match p3At (c :: r) with
    | some n => some n
    | none => searchP3 r

/-- The ordered pattern list of handleServerOutput (lines 181-185):
first match wins. -/
def detectPort (buf : List Char) : Option Nat :=
  match searchP1 buf with
  | some n => some n
  | none =>
    match searchP2 buf with
    | some n => some n
    | none => searchP3 buf

/-- Model of cleanup (lines 259-281): with an error it emits the error,
kills and clears the process handle; without one it only stops the
startup bookkeeping and keeps the handle. -/
def cleanupMgr (st : MgrState) (err : Option String) : MgrState × List MgrEvent :=
  let st := { st with isStarting := false, startupTimeout := false }
  match err with
  | none => (st, [])
  | some e =>
    let outs := [MgrEvent.error e] ++
      (match st.serverProcess with | some p => [MgrEvent.kill p.pid] | none => [])
    ({ st with serverProcess := none }, outs)

/-- Model of handleServerOutput (lines 165-221). -/
def handleServerOutput (st : MgrState) (data : List Char) : MgrState × List MgrEvent :=
  let st := { st with outputBuffer := st.outputBuffer ++ data }
  match detectPort st.outputBuffer with
  | some port =>
    ({ st with serverPort := some port, isStarting := false, startupTimeout := false },
     [.ready (("http://127.0.0.1:".data) ++ natToChars port) port])
  | none =>
    let lowered := st.outputBuffer.map Char.toLower
    let r :=
      if ("error".data) <:+: lowered then
        if ("EADDRINUSE".data) <:+: st.outputBuffer then
          cleanupMgr st (some "Port already in use")
        else if ("EACCES".data) <:+: st.outputBuffer then
          cleanupMgr st (some "Permission denied to bind port")
        else (st, [])
      else (st, [])
    let st2 := r.1
    let st2 :=
      if 10000 < st2.outputBuffer.length then
        { st2 with outputBuffer := st2.outputBuffer.drop (st2.outputBuffer.length - 5000) }
      else st2
    (st2, r.2)

/-- Model of the exit handler installed at lines 84-88: cleanup without
an error, then the exit event. -/
def onProcessExit (st : MgrState) (code : Option Int) (signal : Option String) :
    MgrState × List MgrEvent :=
  let r := cleanupMgr st none
  (r.1, r.2 ++ [.exit code signal])

/-- Model of isRunning (lines 138-140). -/
def isRunning (st : MgrState) : Bool :=
  match st.serverProcess with
  | some p => !p.killed
  | none => false

/-- Resolution value of the pending start promise: the baseUrl carried
by the first ready event (lines 97-103). -/
def firstReady : List MgrEvent → Option (List Char × Nat)
  | [] => none
  | .ready b p :: _ => some (b, p)
  | _ :: r => firstReady r

/-! ### Concrete fixtures used by closed theorems and witnesses -/

def sampleTextPart : SdkPart :=
  ⟨"p1", "s1", "m1", "text", "hello", some 5, "", "", "", .empty, none, none, ""⟩

/-- A completed text part event for session s1. -/
def sampleTextEvent : SdkEvent := ⟨"message.part.updated", some sampleTextPart, none, none⟩

/-- The same text part with no end timestamp (still generating). -/
def sampleIncompleteTextEvent : SdkEvent :=
  ⟨"message.part.updated", some { sampleTextPart with timeEnd := none }, none, none⟩

def samplePendingToolEvent : SdkEvent :=
  ⟨"message.part.updated",
   some ⟨"p1", "s1", "m1", "tool", "", none, "c1", "bash", "pending", .empty,
         some "out", some "err", ""⟩, none, none⟩

def sampleCompletedToolEvent : SdkEvent :=
  ⟨"message.part.updated",
   some ⟨"p1", "s1", "m1", "tool", "", some 9, "c1", "bash", "completed", .empty,
         some "out", some "err", ""⟩, none, none⟩

/-- An adapter with an active session s1 and a running task. -/
def runningAd : AdState := { initAd with sessionId := some "s1" }

/-! ## Theorems -/

set_option maxRecDepth 4000

/-! ### Dedup lemmas for convertSdkEventToMessage -/

lemma convert_step_calls (ev : SdkEvent) (cur : Option String) (sets : DedupSets) (p : String) :
    (((convertSdkEventToMessage ev cur sets).1.toList.filter (isCallMsgFor p)).length
      = if isCallEventFor cur p ev = true ∧ p ∉ sets.calls then 1 else 0)
    ∧ (p ∈ (convertSdkEventToMessage ev cur sets).2.calls
        ↔ (p ∈ sets.calls ∨ isCallEventFor cur p ev = true)) := by
  obtain ⟨et, part?, psid, emsg⟩ := ev
  cases part? with
  | none =>
    simp only [convertSdkEventToMessage, isCallEventFor, Option.isSome_none,
      Bool.false_eq_true, and_false, dite_false]
    split_ifs <;> simp_all [isCallMsgFor]
  | some part =>
    by_cases hp : part.id = p
    · simp only [convertSdkEventToMessage, isCallEventFor, partSessionOk,
        Option.isSome_some, Option.get_some, and_true]
      split_ifs <;> simp_all [isCallMsgFor, isResMsgFor, isTextMsgFor]
    · simp only [convertSdkEventToMessage, isCallEventFor, partSessionOk,
        Option.isSome_some, Option.get_some, and_true]
      split_ifs <;> simp_all [isCallMsgFor, isResMsgFor, isTextMsgFor] <;>
        exact fun h => hp h.symm

lemma convert_step_results (ev : SdkEvent) (cur : Option String) (sets : DedupSets) (p : String) :
    (((convertSdkEventToMessage ev cur sets).1.toList.filter (isResMsgFor p)).length
      = if isResEventFor cur p ev = true ∧ p ∉ sets.results then 1 else 0)
    ∧ (p ∈ (convertSdkEventToMessage ev cur sets).2.results
        ↔ (p ∈ sets.results ∨ isResEventFor cur p ev = true)) := by
  obtain ⟨et, part?, psid, emsg⟩ := ev
  cases part? with
  | none =>
    simp only [convertSdkEventToMessage, isResEventFor, Option.isSome_none,
      Bool.false_eq_true, and_false, dite_false]
    split_ifs <;> simp_all [isResMsgFor]
  | some part =>
    by_cases hp : part.id = p
    · simp only [convertSdkEventToMessage, isResEventFor, partSessionOk,
        Option.isSome_some, Option.get_some, and_true]
      split_ifs <;> simp_all [isCallMsgFor, isResMsgFor, isTextMsgFor]
    · simp only [convertSdkEventToMessage, isResEventFor, partSessionOk,
        Option.isSome_some, Option.get_some, and_true]
      split_ifs <;> simp_all [isCallMsgFor, isResMsgFor, isTextMsgFor] <;>
        exact fun h => hp h.symm

lemma convert_step_texts (ev : SdkEvent) (cur : Option String) (sets : DedupSets) (p : String) :
    (((convertSdkEventToMessage ev cur sets).1.toList.filter (isTextMsgFor p)).length
      = if isTextEventFor cur p ev = true ∧ p ∉ sets.texts then 1 else 0)
    ∧ (p ∈ (convertSdkEventToMessage ev cur sets).2.texts
        ↔ (p ∈ sets.texts ∨ isTextEventFor cur p ev = true)) := by
  obtain ⟨et, part?, psid, emsg⟩ := ev
  cases part? with
  | none =>
    simp only [convertSdkEventToMessage, isTextEventFor, Option.isSome_none,
      Bool.false_eq_true, and_false, dite_false]
    split_ifs <;> simp_all [isTextMsgFor]
  | some part =>
    by_cases hp : part.id = p
    · simp only [convertSdkEventToMessage, isTextEventFor, partSessionOk,
        Option.isSome_some, Option.get_some, and_true]
      split_ifs <;> simp_all [isCallMsgFor, isResMsgFor, isTextMsgFor]
    · simp only [convertSdkEventToMessage, isTextEventFor, partSessionOk,
        Option.isSome_some, Option.get_some, and_true]
      split_ifs <;> simp_all [isCallMsgFor, isResMsgFor, isTextMsgFor] <;>
        exact fun h => hp h.symm

lemma convertAll_calls (cur : Option String) (p : String) :
    ∀ (evs : List SdkEvent) (sets : DedupSets),
      (((convertAll cur sets evs).1.filter (isCallMsgFor p)).length
        = if p ∈ sets.calls then 0 else if evs.any (isCallEventFor cur p) then 1 else 0)
      ∧ (p ∈ (convertAll cur sets evs).2.calls
          ↔ (p ∈ sets.calls ∨ evs.any (isCallEventFor cur p) = true))
  | [], sets => by simp [convertAll]
  | ev :: rest, sets => by
    have hstep := convert_step_calls ev cur sets p
    have hrec := convertAll_calls cur p rest (convertSdkEventToMessage ev cur sets).2
    simp only [convertAll, List.filter_append, List.length_append, List.any_cons]
    rw [show (match (convertSdkEventToMessage ev cur sets).1 with
          | some m => [m] | none => []) = (convertSdkEventToMessage ev cur sets).1.toList from by
        cases (convertSdkEventToMessage ev cur sets).1 <;> rfl]
    constructor
    · rw [hstep.1, hrec.1]
      by_cases h1 : p ∈ sets.calls
      · have h2 : p ∈ (convertSdkEventToMessage ev cur sets).2.calls := hstep.2.mpr (.inl h1)
        simp [h1, h2]
      · by_cases h3 : isCallEventFor cur p ev = true
        · have h2 : p ∈ (convertSdkEventToMessage ev cur sets).2.calls := hstep.2.mpr (.inr h3)
          simp [h1, h2, h3]
        · have h2 : p ∉ (convertSdkEventToMessage ev cur sets).2.calls := by
            intro hmem
            rcases hstep.2.mp hmem with h | h
            · exact h1 h
            · exact h3 h
          simp [h1, h2, h3]
    · rw [hrec.2, hstep.2]
      simp only [Bool.or_eq_true]
      tauto

lemma convertAll_results (cur : Option String) (p : String) :
    ∀ (evs : List SdkEvent) (sets : DedupSets),
      (((convertAll cur sets evs).1.filter (isResMsgFor p)).length
        = if p ∈ sets.results then 0 else if evs.any (isResEventFor cur p) then 1 else 0)
      ∧ (p ∈ (convertAll cur sets evs).2.results
          ↔ (p ∈ sets.results ∨ evs.any (isResEventFor cur p) = true))
  | [], sets => by simp [convertAll]
  | ev :: rest, sets => by
    have hstep := convert_step_results ev cur sets p
    have hrec := convertAll_results cur p rest (convertSdkEventToMessage ev cur sets).2
    simp only [convertAll, List.filter_append, List.length_append, List.any_cons]
    rw [show (match (convertSdkEventToMessage ev cur sets).1 with
          | some m => [m] | none => []) = (convertSdkEventToMessage ev cur sets).1.toList from by
        cases (convertSdkEventToMessage ev cur sets).1 <;> rfl]
    constructor
    · rw [hstep.1, hrec.1]
      by_cases h1 : p ∈ sets.results
      · have h2 : p ∈ (convertSdkEventToMessage ev cur sets).2.results := hstep.2.mpr (.inl h1)
        simp [h1, h2]
      · by_cases h3 : isResEventFor cur p ev = true
        · have h2 : p ∈ (convertSdkEventToMessage ev cur sets).2.results := hstep.2.mpr (.inr h3)
          simp [h1, h2, h3]
        · have h2 : p ∉ (convertSdkEventToMessage ev cur sets).2.results := by
            intro hmem
            rcases hstep.2.mp hmem with h | h
            · exact h1 h
            · exact h3 h
          simp [h1, h2, h3]
    · rw [hrec.2, hstep.2]
      simp only [Bool.or_eq_true]
      tauto

lemma convertAll_texts (cur : Option String) (p : String) :
    ∀ (evs : List SdkEvent) (sets : DedupSets),
      (((convertAll cur sets evs).1.filter (isTextMsgFor p)).length
        = if p ∈ sets.texts then 0 else if evs.any (isTextEventFor cur p) then 1 else 0)
      ∧ (p ∈ (convertAll cur sets evs).2.texts
          ↔ (p ∈ sets.texts ∨ evs.any (isTextEventFor cur p) = true))
  | [], sets => by simp [convertAll]
  | ev :: rest, sets => by
    have hstep := convert_step_texts ev cur sets p
    have hrec := convertAll_texts cur p rest (convertSdkEventToMessage ev cur sets).2
    simp only [convertAll, List.filter_append, List.length_append, List.any_cons]
    rw [show (match (convertSdkEventToMessage ev cur sets).1 with
          | some m => [m] | none => []) = (convertSdkEventToMessage ev cur sets).1.toList from by
        cases (convertSdkEventToMessage ev cur sets).1 <;> rfl]
    constructor
    · rw [hstep.1, hrec.1]
      by_cases h1 : p ∈ sets.texts
      · have h2 : p ∈ (convertSdkEventToMessage ev cur sets).2.texts := hstep.2.mpr (.inl h1)
        simp [h1, h2]
      · by_cases h3 : isTextEventFor cur p ev = true
        · have h2 : p ∈ (convertSdkEventToMessage ev cur sets).2.texts := hstep.2.mpr (.inr h3)
          simp [h1, h2, h3]
        · have h2 : p ∉ (convertSdkEventToMessage ev cur sets).2.texts := by
            intro hmem
            rcases hstep.2.mp hmem with h | h
            · exact h1 h
            · exact h3 h
          simp [h1, h2, h3]
    · rw [hrec.2, hstep.2]
      simp only [Bool.or_eq_true]
      tauto

/-! ### Claim C3 -/

/-- C3: over any sequence of SDK events within one task (the dedup sets
start empty), convertSdkEventToMessage emits at most one tool_call
normalized message and at most one tool_result normalized message for
any given part id; and exactly one of each as soon as the sequence
contains at least one event observing the part with a non-final status
(pending or running) and at least one with a final status (completed
or error). -/
theorem c3_tool_dedup (cur : Option String) (p : String) (evs : List SdkEvent) :
    (((convertAll cur emptySets evs).1.filter (isCallMsgFor p)).length ≤ 1
      ∧ ((convertAll cur emptySets evs).1.filter (isResMsgFor p)).length ≤ 1)
    ∧ (evs.any (isCallEventFor cur p) = true → evs.any (isResEventFor cur p) = true →
        ((convertAll cur emptySets evs).1.filter (isCallMsgFor p)).length = 1
          ∧ ((convertAll cur emptySets evs).1.filter (isResMsgFor p)).length = 1) := by
  have hc := (convertAll_calls cur p evs emptySets).1
  have hr := (convertAll_results cur p evs emptySets).1
  have hpc : p ∉ emptySets.calls := by simp [emptySets]
  have hpr : p ∉ emptySets.results := by simp [emptySets]
  rw [if_neg hpc] at hc
  rw [if_neg hpr] at hr
  constructor
  · constructor
    · rw [hc]; split <;> omega
    · rw [hr]; split <;> omega
  · intro h1 h2
    rw [hc, hr, if_pos h1, if_pos h2]
    exact ⟨rfl, rfl⟩

/-- Witness for C3 at a concrete pending-then-completed sequence. -/
theorem c3_tool_dedup_witness :
    (([samplePendingToolEvent, sampleCompletedToolEvent].any (isCallEventFor (some "s1") "p1")) = true)
    ∧ (((convertAll (some "s1") emptySets [samplePendingToolEvent, sampleCompletedToolEvent]).1.filter
          (isCallMsgFor "p1")).length = 1
        ∧ ((convertAll (some "s1") emptySets [samplePendingToolEvent, sampleCompletedToolEvent]).1.filter
          (isResMsgFor "p1")).length = 1) :=
  ⟨by decide,
   (c3_tool_dedup (some "s1") "p1" [samplePendingToolEvent, sampleCompletedToolEvent]).2
     (by decide) (by decide)⟩

/-! ### Claim C4 -/

/-- C4: a text part yields a normalized text message at most once per
part id over any event sequence of one task; an event for a
still-incomplete text part (absent end timestamp) yields no message,
and a duplicate event for an already-emitted text part id (one in the
text dedup set) yields no message. -/
theorem c4_text_once (cur : Option String) (p : String) (evs : List SdkEvent) :
    ((convertAll cur emptySets evs).1.filter (isTextMsgFor p)).length ≤ 1
    ∧ (∀ (ev : SdkEvent) (part : SdkPart) (sets : DedupSets),
        ev.etype = "message.part.updated" → ev.part = some part → part.ptype = "text" →
        part.timeEnd.getD 0 = 0 →
        (convertSdkEventToMessage ev cur sets).1 = none)
    ∧ (∀ (ev : SdkEvent) (part : SdkPart) (sets : DedupSets),
        ev.etype = "message.part.updated" → ev.part = some part → part.ptype = "text" →
        part.id ∈ sets.texts →
        (convertSdkEventToMessage ev cur sets).1 = none) := by
  refine ⟨?_, ?_, ?_⟩
  · have ht := (convertAll_texts cur p evs emptySets).1
    have hpt : p ∉ emptySets.texts := by simp [emptySets]
    rw [if_neg hpt] at ht
    rw [ht]; split <;> omega
  · rintro ⟨et, part?, psid, emsg⟩ part sets het hpart hty hend
    simp only at het hpart
    subst het; subst hpart
    simp only [convertSdkEventToMessage, Option.isSome_some, Option.get_some, and_true]
    split_ifs <;> simp_all
  · rintro ⟨et, part?, psid, emsg⟩ part sets het hpart hty hdup
    simp only at het hpart
    subst het; subst hpart
    simp only [convertSdkEventToMessage, Option.isSome_some, Option.get_some, and_true]
    split_ifs <;> simp_all

/-- Witness for C4 at concrete events: the complete text event emits
once, the incomplete and the duplicate emit nothing. -/
theorem c4_text_once_witness :
    ((convertAll (some "s1") emptySets [sampleIncompleteTextEvent, sampleTextEvent, sampleTextEvent]).1.filter
        (isTextMsgFor "p1")).length ≤ 1
    ∧ (convertSdkEventToMessage sampleIncompleteTextEvent (some "s1") emptySets).1 = none
    ∧ (convertSdkEventToMessage sampleTextEvent (some "s1")
        ⟨[], [], ["p1"]⟩).1 = none :=
  ⟨(c4_text_once (some "s1") "p1" [sampleIncompleteTextEvent, sampleTextEvent, sampleTextEvent]).1,
   (c4_text_once (some "s1") "p1" []).2.1 sampleIncompleteTextEvent
     { sampleTextPart with timeEnd := none } emptySets rfl rfl rfl rfl,
   (c4_text_once (some "s1") "p1" []).2.2 sampleTextEvent sampleTextPart
     ⟨[], [], ["p1"]⟩ rfl rfl rfl (by decide)⟩

/-! ### Claim C5 -/

/-- C5 counterexample: when the task has already been finalized
(hasCompleted is true), handling a step_finish message whose reason is
error emits nothing at all, in particular no complete event with
status error, contradicting the claim that such a message always
finalizes the task as failed. -/
theorem c5_counterexample :
    (handleMessage (.stepFinish "s1" "p1" "error") { initAd with hasCompleted := true }).2 = []
    ∧ (handleMessage (.stepFinish "s1" "p1" "error") { initAd with hasCompleted := true }).1
        = { initAd with hasCompleted := true } := by
  constructor <;> rfl

/-- C5 as amended: an error-typed stream message always finalizes the
task as failed (a complete event with status error, regardless of any
prior completion-tool call, enforcer state or prior finalization), and
a step_finish message with reason error does so provided the task has
not already been finalized; neither path dispatches a continuation
prompt or any retry. -/
theorem c5_error_finalizes (st : AdState) (sid pid msg : String) :
    ((handleMessage (.err msg) st).1.hasCompleted = true
      ∧ (handleMessage (.err msg) st).2 =
          [.evComplete "error" (some (if msg = "" then "Unknown error" else msg))])
    ∧ (st.hasCompleted = false →
        (handleMessage (.stepFinish sid pid "error") st).1.hasCompleted = true
        ∧ (handleMessage (.stepFinish sid pid "error") st).2 =
            [.evComplete "error" (some "Task failed")]) := by
  constructor
  · exact ⟨rfl, rfl⟩
  · intro h
    constructor <;> simp [handleMessage, h]

/-- Witness for C5 on a fresh running adapter with completion already
detected by the enforcer: the step_finish error still finalizes. -/
theorem c5_error_finalizes_witness :
    ((handleMessage (.err "boom") runningAd).1.hasCompleted = true
      ∧ (handleMessage (.err "boom") runningAd).2 = [.evComplete "error" (some "boom")])
    ∧ ((handleMessage (.stepFinish "s1" "p1" "error")
          { runningAd with enf := { EnfState.reset with completionDetected := true } }).1.hasCompleted = true
        ∧ (handleMessage (.stepFinish "s1" "p1" "error")
          { runningAd with enf := { EnfState.reset with completionDetected := true } }).2 =
            [.evComplete "error" (some "Task failed")]) := by
  refine ⟨?_, ?_⟩
  · have h := (c5_error_finalizes runningAd "s1" "p1" "boom").1
    simpa using h
  · exact (c5_error_finalizes
      { runningAd with enf := { EnfState.reset with completionDetected := true } }
      "s1" "p1" "boom").2 rfl

/-! ### Claim C6 -/

/-- C6: start rejects while a server process handle exists (with the
already-running error) and rejects while a previous start is still in
progress (with the already-starting error), in both cases producing no
state change and no spawn; a successful start implies there was no
process and no start in progress, and spawns exactly one process. -/
theorem c6_single_start (st : MgrState) (pid : Nat) :
    (st.serverProcess.isSome = true → startMgr st pid = .error .alreadyRunning)
    ∧ (st.serverProcess.isSome = false → st.isStarting = true →
        startMgr st pid = .error .alreadyStarting)
    ∧ (∀ st' outs, startMgr st pid = .ok (st', outs) →
        st.serverProcess = none ∧ st.isStarting = false ∧ outs = [.spawn pid]) := by
  refine ⟨?_, ?_, ?_⟩
  · intro h; simp [startMgr, h]
  · intro h1 h2; simp [startMgr, h1, h2]
  · intro st' outs h
    rw [startMgr] at h
    by_cases h1 : st.serverProcess.isSome
    · simp [h1] at h
    · by_cases h2 : st.isStarting
      · simp [h1, h2] at h
      · simp only [h1, Bool.false_eq_true, if_false, h2] at h
        refine ⟨Option.not_isSome_iff_eq_none.mp (by simp [h1]), by simpa using h2, ?_⟩
        cases h
        rfl

/-- Witness for C6: a running manager and a starting manager both
reject. -/
theorem c6_single_start_witness :
    startMgr { initMgr with serverProcess := some ⟨7, false⟩ } 9 = .error .alreadyRunning
    ∧ startMgr { initMgr with isStarting := true } 9 = .error .alreadyStarting :=
  ⟨(c6_single_start { initMgr with serverProcess := some ⟨7, false⟩ } 9).1 rfl,
   (c6_single_start { initMgr with isStarting := true } 9).2.1 rfl rfl⟩

/-! ### Claim C7 -/

/-- C7: after a successful start, feeding the output chunk naming the
listening URL makes the manager detect port 51823 through its ordered
pattern list, emit ready with base URL http 127.0.0.1 51823, stop
starting, and resolve the pending start with that base URL (the first
ready event). -/
theorem c7_port_detection :
    ∃ st1 : MgrState,
      startMgr initMgr 7 = .ok (st1, [.spawn 7])
      ∧ (handleServerOutput st1
          ("opencode server listening on http://127.0.0.1:51823\n".data)).2
          = [.ready ("http://127.0.0.1:51823".data) 51823]
      ∧ (handleServerOutput st1
          ("opencode server listening on http://127.0.0.1:51823\n".data)).1.serverPort
          = some 51823
      ∧ (handleServerOutput st1
          ("opencode server listening on http://127.0.0.1:51823\n".data)).1.isStarting = false
      ∧ firstReady (handleServerOutput st1
          ("opencode server listening on http://127.0.0.1:51823\n".data)).2
          = some ("http://127.0.0.1:51823".data, 51823) := by
  refine ⟨_, rfl, ?_, ?_, ?_, ?_⟩ <;> decide

/-! ### Claim C8 -/

/-- C8 is a code bug: eventController is never assigned, so the abort
in cancelTask is a no-op; after cancelTask the consumption loop still
converts and handles events (here a text event is still emitted),
whereas after dispose the loop drops them.  This theorem evaluates the
code at the failing input: cancelTask followed by a session event. -/
theorem c8_cancel_keeps_handling :
    (cancelTask runningAd).1.eventController = none
    ∧ (cancelTask runningAd).2 = [.fxSessionAbort]
    ∧ (processEvent (cancelTask runningAd).1 sampleTextEvent).2
        = [.evMessage (.text "s1" "p1" "hello")]
    ∧ (processEvent (dispose runningAd).1 sampleTextEvent).2 = [] := by
  refine ⟨rfl, rfl, rfl, rfl⟩

/-! ### Claim C9 -/

/-- C9: dispose is idempotent (the second call leaves the state
unchanged and produces no output at all), and startTask after dispose
always fails with the disposed error, creating no session and mutating
nothing. -/
theorem c9_dispose_idempotent (st : AdState) (cliInstalled : Bool) (taskId : String) :
    (dispose (dispose st).1).1 = (dispose st).1
    ∧ (dispose (dispose st).1).2 = []
    ∧ startTask (dispose st).1 cliInstalled taskId = .error .disposed := by
  by_cases h : st.isDisposed
  · refine ⟨?_, ?_, ?_⟩ <;> simp [dispose, startTask, h]
  · refine ⟨?_, ?_, ?_⟩ <;> simp [dispose, startTask, h]

/-! ### Claim C10 -/

/-- C10: when the child exits on its own (exit handler runs cleanup
with no error), the manager keeps its process handle, isRunning still
answers true (the process was never killed through the manager), and a
subsequent start is rejected with the already-running error. -/
theorem c10_exit_keeps_handle (st : MgrState) (p : Proc) (code : Option Int)
    (sig : Option String) (pid2 : Nat)
    (h : st.serverProcess = some p) (hk : p.killed = false) :
    (onProcessExit st code sig).1.serverProcess = some p
    ∧ isRunning (onProcessExit st code sig).1 = true
    ∧ startMgr (onProcessExit st code sig).1 pid2 = .error .alreadyRunning := by
  refine ⟨?_, ?_, ?_⟩ <;> simp [onProcessExit, cleanupMgr, isRunning, startMgr, h, hk]

/-- Witness for C10 at a concrete exited server. -/
theorem c10_exit_keeps_handle_witness :
    (onProcessExit { initMgr with serverProcess := some ⟨7, false⟩ } (some 0) none).1.serverProcess
      = some ⟨7, false⟩
    ∧ isRunning (onProcessExit { initMgr with serverProcess := some ⟨7, false⟩ } (some 0) none).1 = true
    ∧ startMgr (onProcessExit { initMgr with serverProcess := some ⟨7, false⟩ } (some 0) none).1 9
      = .error .alreadyRunning :=
  c10_exit_keeps_handle { initMgr with serverProcess := some ⟨7, false⟩ } ⟨7, false⟩
    (some 0) none 9 rfl rfl

/-! ### Scanner path lemmas (claims C1 and C2) -/

lemma Steps.append_steps {st st1 st2 : SSt} {a b : List Char}
    (h1 : Steps st a st1) (h2 : Steps st1 b st2) : Steps st (a ++ b) st2 := by
  induction h1 with
  | nil => exact h2
  | esc h _ ih => exact Steps.esc h (ih h2)
  | bslash h _ ih => exact Steps.bslash h (ih h2)
  | quote h _ ih => exact Steps.quote h (ih h2)
  | strOther h h2' h3 h4 _ ih => exact Steps.strOther h h2' h3 h4 (ih h2)
  | openN h h2' h3 _ ih => exact Steps.openN h h2' h3 (ih h2)
  | closeHigh h h2' h3 _ ih => exact Steps.closeHigh h h2' h3 (ih h2)
  | closeZero h h2' h3 _ ih => exact Steps.closeZero h h2' h3 (ih h2)
  | other h h2' h3 h4 h5 h6 _ ih => exact Steps.other h h2' h3 h4 h5 h6 (ih h2)

lemma Steps.front {st st' : SSt} : ∀ {a b : List Char},
    Steps st (a ++ b) st' → ∃ stm, Steps st a stm ∧ Steps stm b st'
  | [], _, h => ⟨st, Steps.nil, h⟩
  | c :: a, b, h => by
    cases h with
    | esc h hrest =>
      obtain ⟨stm, h1, h2⟩ := Steps.front hrest
      exact ⟨stm, Steps.esc h h1, h2⟩
    | bslash h hrest =>
      obtain ⟨stm, h1, h2⟩ := Steps.front hrest
      exact ⟨stm, Steps.bslash h h1, h2⟩
    | quote h hrest =>
      obtain ⟨stm, h1, h2⟩ := Steps.front hrest
      exact ⟨stm, Steps.quote h h1, h2⟩
    | strOther h a1 a2 a3 hrest =>
      obtain ⟨stm, h1, h2⟩ := Steps.front hrest
      exact ⟨stm, Steps.strOther h a1 a2 a3 h1, h2⟩
    | openN h a1 a2 hrest =>
      obtain ⟨stm, h1, h2⟩ := Steps.front hrest
      exact ⟨stm, Steps.openN h a1 a2 h1, h2⟩
    | closeHigh h a1 a2 hrest =>
      obtain ⟨stm, h1, h2⟩ := Steps.front hrest
      exact ⟨stm, Steps.closeHigh h a1 a2 h1, h2⟩
    | closeZero h a1 a2 hrest =>
      obtain ⟨stm, h1, h2⟩ := Steps.front hrest
      exact ⟨stm, Steps.closeZero h a1 a2 h1, h2⟩
    | other h a1 a2 a3 a4 a5 hrest =>
      obtain ⟨stm, h1, h2⟩ := Steps.front hrest
      exact ⟨stm, Steps.other h a1 a2 a3 a4 a5 h1, h2⟩

/-- Stepping the scanner through a neutral segment: the scan of the
segment followed by r from the initial state equals the scan of r
from the final state, with the index advanced. -/
lemma findObjAux_steps {st st' : SSt} {seg : List Char} (h : Steps st seg st') :
    ∀ (r : List Char) (i : Nat),
      findObjAux (seg ++ r) i st = findObjAux r (i + seg.length) st' := by
  induction h with
  | nil => intro r i; simp
  | @esc st c cs st' h _ ih =>
    intro r i
    simp only [List.cons_append, findObjAux, h]
    simp [ih r (i + 1)]
    rw [show i + (cs.length + 1) = i + 1 + cs.length by omega]
  | @bslash st cs st' h _ ih =>
    intro r i
    simp only [List.cons_append, findObjAux, h]
    simp [ih r (i + 1)]
    rw [show i + (cs.length + 1) = i + 1 + cs.length by omega]
  | @quote st cs st' h _ ih =>
    intro r i
    simp only [h] at ih
    simp only [List.cons_append, findObjAux, h]
    simp [ih r (i + 1)]
    rw [show i + (cs.length + 1) = i + 1 + cs.length by omega]
  | @strOther st c cs st' h h2 h3 h4 _ ih =>
    intro r i
    try simp only [h, h2] at ih
    simp only [List.cons_append, findObjAux, h, h2]
    simp [h3, h4, ih r (i + 1)]
    rw [show i + (cs.length + 1) = i + 1 + cs.length by omega]
  | @openN st cs st' h h2 h3 _ ih =>
    intro r i
    simp only [h, h2] at ih
    simp only [List.cons_append, findObjAux, h, h2]
    simp [h3, ih r (i + 1)]
    rw [show i + (cs.length + 1) = i + 1 + cs.length by omega]
  | @closeHigh st cs st' h h2 h3 _ ih =>
    intro r i
    have d0 : ¬st.depth = 0 := by omega
    have d1 : ¬st.depth = 1 := by omega
    simp only [h, h2] at ih
    simp only [List.cons_append, findObjAux, h, h2]
    simp [d0, d1, ih r (i + 1)]
    rw [show i + (cs.length + 1) = i + 1 + cs.length by omega]
  | @closeZero st cs st' h h2 h3 _ ih =>
    intro r i
    simp only [List.cons_append, findObjAux, h, h2]
    try simp only [h, h2] at ih
    simp [h3, ih r (i + 1)]
    rw [show i + (cs.length + 1) = i + 1 + cs.length by omega]
  | @other st c cs st' h h2 h3 h4 h5 h6 _ ih =>
    intro r i
    try simp only [h, h2] at ih
    simp only [List.cons_append, findObjAux, h, h2]
    simp [h3, h4, h5, h6, ih r (i + 1)]
    rw [show i + (cs.length + 1) = i + 1 + cs.length by omega]

/-- A neutral segment alone never produces a scan result. -/
lemma findObjAux_steps_none {st st' : SSt} {seg : List Char} (h : Steps st seg st')
    (i : Nat) : findObjAux seg i st = none := by
  have := findObjAux_steps h [] i
  simpa [findObjAux] using this

lemma steps_plain {seg : List Char}
    (h : ∀ c ∈ seg, c ≠ '\\' ∧ c ≠ '"' ∧ c ≠ '{' ∧ c ≠ '}') (d : Nat) (p : Option Nat) :
    Steps ⟨false, false, d, p⟩ seg ⟨false, false, d, p⟩ := by
  induction seg with
  | nil => exact .nil
  | cons c cs ih =>
    obtain ⟨h1, h2, h3, h4⟩ := h c (by simp)
    exact .other rfl rfl h1 h2 h3 h4 (ih fun c' hc => h c' (by simp [hc]))

lemma steps_ws {w : List Char} (hw : allWs w) (d : Nat) (p : Option Nat) :
    Steps ⟨false, false, d, p⟩ w ⟨false, false, d, p⟩ := by
  apply steps_plain
  intro c hc
  have hw' := hw c hc
  have : c = ' ' ∨ c = '\t' ∨ c = '\n' ∨ c = '\r' := by
    revert hw'; simp [wsChar]; tauto
  rcases this with h | h | h | h <;> subst h <;>
    exact ⟨by decide, by decide, by decide, by decide⟩

lemma steps_strInner {l : List Char} (hl : StrInner l) (d : Nat) (p : Option Nat) :
    Steps ⟨true, false, d, p⟩ l ⟨true, false, d, p⟩ := by
  induction hl with
  | nil => exact .nil
  | @uch c s hc _ ih =>
    have h1 : c ≠ '\\' := by
      intro he; subst he; simp [strCharOk] at hc
    have h2 : c ≠ '"' := by
      intro he; subst he; simp [strCharOk] at hc
    exact .strOther rfl rfl h1 h2 ih
  | @esc c s _ _ ih => exact .bslash rfl (.esc rfl ih)
  | @uesc a b d' e s ha hb hd he _ ih =>
    have hx : ∀ c', hexDig c' = true →
        c' ≠ '\\' ∧ c' ≠ '"' := by
      intro c' hc'
      constructor <;> (intro he'; subst he'; exact absurd hc' (by decide))
    refine .bslash rfl (.esc rfl ?_)
    refine .strOther rfl rfl (hx a ha).1 (hx a ha).2 ?_
    refine .strOther rfl rfl (hx b hb).1 (hx b hb).2 ?_
    refine .strOther rfl rfl (hx d' hd).1 (hx d' hd).2 ?_
    exact .strOther rfl rfl (hx e he).1 (hx e he).2 ih

lemma steps_str {l : List Char} (hl : StrInner l) (d : Nat) (p : Option Nat) :
    Steps ⟨false, false, d, p⟩ ('"' :: (l ++ ['"'])) ⟨false, false, d, p⟩ := by
  refine .quote rfl ?_
  exact Steps.append_steps (steps_strInner hl d p) (.quote rfl .nil)

lemma steps_tok {t : JTok} (hw : wfTok t) (h1 : t ≠ .lbrace) (h2 : t ≠ .rbrace)
    (d : Nat) (p : Option Nat) :
    Steps ⟨false, false, d, p⟩ (tokText t) ⟨false, false, d, p⟩ := by
  cases t with
  | lbrace => exact absurd rfl h1
  | rbrace => exact absurd rfl h2
  | str l => exact steps_str hw d p
  | num l =>
    apply steps_plain
    intro c hc
    have hcl := hw.2.1 c hc
    refine ⟨?_, ?_, ?_, ?_⟩ <;> (intro he; subst he; exact absurd hcl (by decide))
  | lbrack =>
    apply steps_plain; intro c hc; fin_cases hc
    exact ⟨by decide, by decide, by decide, by decide⟩
  | rbrack =>
    apply steps_plain; intro c hc; fin_cases hc
    exact ⟨by decide, by decide, by decide, by decide⟩
  | colon =>
    apply steps_plain; intro c hc; fin_cases hc
    exact ⟨by decide, by decide, by decide, by decide⟩
  | comma =>
    apply steps_plain; intro c hc; fin_cases hc
    exact ⟨by decide, by decide, by decide, by decide⟩
  | tru =>
    apply steps_plain; intro c hc; fin_cases hc <;>
      exact ⟨by decide, by decide, by decide, by decide⟩
  | fls =>
    apply steps_plain; intro c hc; fin_cases hc <;>
      exact ⟨by decide, by decide, by decide, by decide⟩
  | nul =>
    apply steps_plain; intro c hc; fin_cases hc <;>
      exact ⟨by decide, by decide, by decide, by decide⟩

lemma findObjAux_open0 (rest : List Char) (i : Nat) (p : Option Nat) :
    findObjAux ('{' :: rest) i ⟨false, false, 0, p⟩
      = findObjAux rest (i + 1) ⟨false, false, 1, some i⟩ := by
  simp [findObjAux]

lemma findObjAux_close1 (rest : List Char) (i s0 : Nat) :
    findObjAux ('}' :: rest) i ⟨false, false, 1, some s0⟩ = some (s0, i) := by
  simp [findObjAux]

lemma findObj_ws_none {w : List Char} (hw : allWs w) : findObj w = none :=
  findObjAux_steps_none (steps_ws hw 0 none) 0

/-- The scanner finds exactly the core object span, whatever follows. -/
lemma findObj_core_at {core : List Char} (hc : CoreOK core) {w : List Char} (hw : allWs w)
    (tail : List Char) :
    findObj (w ++ core ++ tail) = some (w.length, w.length + core.length - 1) := by
  obtain ⟨body, hbody, hsteps⟩ := hc
  subst hbody
  simp only [findObj, SSt.init]
  have e1 : (w ++ ('{' :: body ++ ['}']) ++ tail)
      = w ++ ('{' :: (body ++ ('}' :: tail)))  := by simp
  rw [e1, findObjAux_steps (steps_ws hw 0 none), findObjAux_open0]
  simp only [Nat.zero_add]
  rw [findObjAux_steps (hsteps (some w.length))]
  rw [findObjAux_close1]
  simp only [Option.some.injEq, Prod.mk.injEq, List.length_cons, List.length_append,
    List.length_singleton]
  refine ⟨trivial, ?_⟩
  simp only [List.length_nil]
  omega

/-- No strict character prefix of whitespace plus the core ever scans
to a complete object. -/
lemma findObj_core_lead_none {core : List Char} (hc : CoreOK core) {w : List Char}
    (hw : allWs w) {q : List Char} (hq : q <+: core) (hne : q.length < core.length) :
    findObj (w ++ q) = none := by
  obtain ⟨body, hbody, hsteps⟩ := hc
  subst hbody
  cases q with
  | nil => simpa using findObj_ws_none hw
  | cons c q' =>
    obtain ⟨rest, hrest⟩ := hq
    have hc' : c = '{' := by
      have := congrArg (fun l => l.head?) hrest.symm
      simpa using this.symm
    subst hc'
    have hlen : q'.length ≤ body.length := by
      have := congrArg List.length hrest
      simp at this ⊢
      simp at hne
      omega
    have hq' : q' = body.take q'.length := by
      have hqr : q' ++ rest = body ++ ['}'] := by
        have := hrest
        simpa using this
      have h2 := congrArg (fun l => List.take q'.length l) hqr
      simp only at h2
      rw [List.take_left, List.take_append_of_le_length hlen] at h2
      exact h2
    have hpre : q' <+: body := hq' ▸ List.take_prefix _ _
    obtain ⟨restb, hrestb⟩ := hpre
    simp only [findObj, SSt.init]
    rw [findObjAux_steps (steps_ws hw 0 none), findObjAux_open0]
    simp only [Nat.zero_add]
    obtain ⟨stm, hstm, _⟩ := Steps.front (a := q') (b := restb)
      (hrestb ▸ hsteps (some w.length))
    exact findObjAux_steps_none hstm _

/-! ### Lexer structure lemmas -/

lemma head_dropWhile_not {p : Char → Bool} : ∀ {l : List Char} {c : Char},
    (l.dropWhile p).head? = some c → p c = false
  | [], c => by simp
  | a :: l, c => by
    by_cases h : p a
    · simp [List.dropWhile_cons, h]
      exact head_dropWhile_not
    · simp [List.dropWhile_cons, h]
      rintro rfl
      simpa using h

lemma takeWhile_all {p : Char → Bool} {a : List Char}
    (h : ∀ c ∈ a, p c = true) (b : List Char) :
    (a ++ b).takeWhile p = a ++ b.takeWhile p := by
  induction a with
  | nil => simp
  | cons c a ih =>
    have hc := h c (by simp)
    simp [List.takeWhile_cons, hc]
    exact ih fun c' hc' => h c' (by simp [hc'])

lemma dropWhile_all {p : Char → Bool} {a : List Char}
    (h : ∀ c ∈ a, p c = true) (b : List Char) :
    (a ++ b).dropWhile p = b.dropWhile p := by
  induction a with
  | nil => simp
  | cons c a ih =>
    have hc := h c (by simp)
    simp [List.dropWhile_cons, hc]
    exact ih fun c' hc' => h c' (by simp [hc'])

lemma mem_takeWhile_pred {p : Char → Bool} : ∀ {l : List Char} {c : Char},
    c ∈ l.takeWhile p → p c = true
  | [], c => by simp
  | a :: l, c => by
    by_cases h : p a
    · simp [List.takeWhile_cons, h]
      rintro (rfl | hmem)
      · exact h
      · exact mem_takeWhile_pred hmem
    · simp [List.takeWhile_cons, h]

lemma lexStr_spec : ∀ (x l r : List Char), lexStr x = some (l, r) →
    x = l ++ '"' :: r ∧ StrInner l
  | [], l, r => by simp [lexStr]
  | c :: x, l, r => by
    rw [lexStr.eq_def]
    simp only
    split_ifs with h1 h2 h3
    · subst h1
      simp only [Option.some.injEq, Prod.mk.injEq]
      rintro ⟨rfl, rfl⟩
      exact ⟨rfl, .nil⟩
    · subst h2
      cases x with
      | nil => exact fun h => Option.noConfusion h
      | cons c2 r2 =>
        show (if escOk c2 = true then
                Option.map (fun p => ('\\' :: c2 :: p.1, p.2)) (lexStr r2)
              else if c2 = 'u' then
                (match r2 with
                 | a :: b :: d :: e :: r3 =>
                   if (hexDig a && hexDig b && hexDig d && hexDig e) = true then
                     Option.map (fun p => ('\\' :: 'u' :: a :: b :: d :: e :: p.1, p.2))
                       (lexStr r3)
                   else none
                 | _ => none)
              else none) = some (l, r) →
          '\\' :: c2 :: r2 = l ++ '"' :: r ∧ StrInner l
        split_ifs with h4 h5
        · match hrec : lexStr r2 with
          | none => exact fun h => by first | exact h.elim | exact Option.noConfusion h | simp at h
          | some (l2, r3) =>
            have ih := lexStr_spec r2 l2 r3 hrec
            simp only [Option.map_some', Option.some.injEq, Prod.mk.injEq]
            rintro ⟨rfl, rfl⟩
            exact ⟨by simp [ih.1], .esc h4 ih.2⟩
        · subst h5
          rcases r2 with _ | ⟨a, _ | ⟨b, _ | ⟨d, _ | ⟨e, r3⟩⟩⟩⟩
          · exact fun h => by first | exact h.elim | exact Option.noConfusion h | simp at h
          · exact fun h => by first | exact h.elim | exact Option.noConfusion h | simp at h
          · exact fun h => by first | exact h.elim | exact Option.noConfusion h | simp at h
          · exact fun h => by first | exact h.elim | exact Option.noConfusion h | simp at h
          · show (if (hexDig a && hexDig b && hexDig d && hexDig e) = true then
                Option.map (fun p => ('\\' :: 'u' :: a :: b :: d :: e :: p.1, p.2))
                  (lexStr r3)
              else none) = some (l, r) →
              '\\' :: 'u' :: a :: b :: d :: e :: r3 = l ++ '"' :: r ∧ StrInner l
            split_ifs with h6
            · match hrec : lexStr r3 with
              | none => exact fun h => by first | exact h.elim | exact Option.noConfusion h | simp at h
              | some (l2, r4) =>
                have ih := lexStr_spec r3 l2 r4 hrec
                simp only [Option.map_some', Option.some.injEq, Prod.mk.injEq]
                rintro ⟨rfl, rfl⟩
                simp only [Bool.and_eq_true] at h6
                exact ⟨by simp [ih.1],
                  .uesc h6.1.1.1 h6.1.1.2 h6.1.2 h6.2 ih.2⟩
            · exact fun h => by first | exact h.elim | exact Option.noConfusion h | simp at h
        · exact fun h => by first | exact h.elim | exact Option.noConfusion h | simp at h
    · match hrec : lexStr x with
      | none => exact fun h => by first | exact h.elim | exact Option.noConfusion h | simp at h
      | some (l2, r3) =>
        have ih := lexStr_spec x l2 r3 hrec
        simp only [Option.map_some', Option.some.injEq, Prod.mk.injEq]
        rintro ⟨rfl, rfl⟩
        exact ⟨by simp [ih.1], .uch h3 ih.2⟩
    · exact fun h => by first | exact h.elim | exact Option.noConfusion h | simp at h

lemma lexStr_complete {l : List Char} (hl : StrInner l) :
    ∀ r, lexStr (l ++ '"' :: r) = some (l, r) := by
  induction hl with
  | nil => intro r; unfold lexStr; simp
  | @uch c s hc _ ih =>
    intro r
    have h1 : ¬c = '"' := by intro he; subst he; simp [strCharOk] at hc
    have h2 : ¬c = '\\' := by intro he; subst he; simp [strCharOk] at hc
    rw [show c :: s ++ '"' :: r = c :: (s ++ '"' :: r) from rfl, lexStr.eq_def]
    simp [h1, h2, hc, ih r]
  | @esc c s hc _ ih =>
    intro r
    rw [show ('\\' :: c :: s) ++ '"' :: r = '\\' :: (c :: s ++ '"' :: r) from rfl, lexStr.eq_def]
    simp [hc, ih r]
  | @uesc a b d e s ha hb hd he _ ih =>
    intro r
    rw [show ('\\' :: 'u' :: a :: b :: d :: e :: s) ++ '"' :: r
        = '\\' :: ('u' :: a :: b :: d :: e :: s ++ '"' :: r) from rfl, lexStr.eq_def]
    simp [escOk, ha, hb, hd, he, ih r]



lemma lexOne_spec {c : Char} {r : List Char} {t : JTok} {r2 : List Char}
    (h : lexOne c r = some (t, r2)) :
    c :: r = tokText t ++ r2 ∧ wfTok t ∧
    (∀ l, t = JTok.num l → ∀ c2, r2.head? = some c2 → numClass c2 = false) := by
  unfold lexOne at h
  by_cases h1 : c = '{'
  · rw [if_pos h1] at h
    simp only [Option.some.injEq, Prod.mk.injEq] at h
    obtain ⟨rfl, rfl⟩ := h
    subst h1
    exact ⟨rfl, trivial, by intro l hl; cases hl⟩
  rw [if_neg h1] at h
  by_cases h2 : c = '}'
  · rw [if_pos h2] at h
    simp only [Option.some.injEq, Prod.mk.injEq] at h
    obtain ⟨rfl, rfl⟩ := h
    subst h2
    exact ⟨rfl, trivial, by intro l hl; cases hl⟩
  rw [if_neg h2] at h
  by_cases h3 : c = '['
  · rw [if_pos h3] at h
    simp only [Option.some.injEq, Prod.mk.injEq] at h
    obtain ⟨rfl, rfl⟩ := h
    subst h3
    exact ⟨rfl, trivial, by intro l hl; cases hl⟩
  rw [if_neg h3] at h
  by_cases h4 : c = ']'
  · rw [if_pos h4] at h
    simp only [Option.some.injEq, Prod.mk.injEq] at h
    obtain ⟨rfl, rfl⟩ := h
    subst h4
    exact ⟨rfl, trivial, by intro l hl; cases hl⟩
  rw [if_neg h4] at h
  by_cases h5 : c = ':'
  · rw [if_pos h5] at h
    simp only [Option.some.injEq, Prod.mk.injEq] at h
    obtain ⟨rfl, rfl⟩ := h
    subst h5
    exact ⟨rfl, trivial, by intro l hl; cases hl⟩
  rw [if_neg h5] at h
  by_cases h6 : c = ','
  · rw [if_pos h6] at h
    simp only [Option.some.injEq, Prod.mk.injEq] at h
    obtain ⟨rfl, rfl⟩ := h
    subst h6
    exact ⟨rfl, trivial, by intro l hl; cases hl⟩
  rw [if_neg h6] at h
  by_cases h7 : c = '"'
  · rw [if_pos h7] at h
    subst h7
    cases hrec : lexStr r with
    | none => rw [hrec] at h; cases h
    | some p =>
      obtain ⟨l3, r3⟩ := p
      rw [hrec] at h
      simp only [Option.map_some', Option.some.injEq, Prod.mk.injEq] at h
      obtain ⟨rfl, rfl⟩ := h
      obtain ⟨he, hs⟩ := lexStr_spec _ _ _ hrec
      refine ⟨?_, hs, by intro l hl; cases hl⟩
      simp [tokText, he]
  rw [if_neg h7] at h
  by_cases h8 : c = 't'
  · rw [if_pos h8] at h
    subst h8
    split at h
    · simp only [Option.some.injEq, Prod.mk.injEq] at h
      obtain ⟨rfl, rfl⟩ := h
      exact ⟨rfl, trivial, by intro l hl; cases hl⟩
    · cases h
  rw [if_neg h8] at h
  by_cases h9 : c = 'f'
  · rw [if_pos h9] at h
    subst h9
    split at h
    · simp only [Option.some.injEq, Prod.mk.injEq] at h
      obtain ⟨rfl, rfl⟩ := h
      exact ⟨rfl, trivial, by intro l hl; cases hl⟩
    · cases h
  rw [if_neg h9] at h
  by_cases h10 : c = 'n'
  · rw [if_pos h10] at h
    subst h10
    split at h
    · simp only [Option.some.injEq, Prod.mk.injEq] at h
      obtain ⟨rfl, rfl⟩ := h
      exact ⟨rfl, trivial, by intro l hl; cases hl⟩
    · cases h
  rw [if_neg h10] at h
  by_cases h11 : numClass c = true
  · rw [if_pos h11] at h
    simp only at h
    split at h
    next hshape =>
      simp only [Option.some.injEq, Prod.mk.injEq] at h
      obtain ⟨rfl, rfl⟩ := h
      refine ⟨?_, ?_, ?_⟩
      · simp only [tokText, List.cons_append, List.cons.injEq, true_and]
        exact (List.takeWhile_append_dropWhile (p := numClass) (l := r)).symm
      · refine ⟨by simp, ?_, hshape⟩
        intro c' hc'
        rcases List.mem_cons.mp hc' with rfl | hmem
        · exact h11
        · exact mem_takeWhile_pred hmem
      · intro l hl c2 hc2
        exact head_dropWhile_not hc2
    next => cases h
  · rw [if_neg h11] at h
    cases h



lemma numClass_not_special {c : Char} (h : numClass c = true) :
    c ≠ '{' ∧ c ≠ '}' ∧ c ≠ '[' ∧ c ≠ ']' ∧ c ≠ ':' ∧ c ≠ ',' ∧ c ≠ '"' ∧
    c ≠ 't' ∧ c ≠ 'f' ∧ c ≠ 'n' := by
  refine ⟨?_, ?_, ?_, ?_, ?_, ?_, ?_, ?_, ?_, ?_⟩ <;>
    (intro he; subst he; exact absurd h (by decide))

lemma takeWhile_head_false {p : Char → Bool} {s : List Char}
    (h : ∀ c2, s.head? = some c2 → p c2 = false) :
    s.takeWhile p = [] ∧ s.dropWhile p = s := by
  cases s with
  | nil => simp
  | cons a s' =>
    have ha := h a rfl
    constructor
    · simp [List.takeWhile_cons, ha]
    · simp [List.dropWhile_cons, ha]

lemma lexOne_complete {t : JTok} (hw : wfTok t) {s : List Char}
    (hnum : ∀ l, t = JTok.num l → ∀ c2, s.head? = some c2 → numClass c2 = false)
    {c : Char} {rtext : List Char} (ht : tokText t = c :: rtext) :
    lexOne c (rtext ++ s) = some (t, s) := by
  cases t with
  | lbrace =>
    simp only [tokText, List.cons.injEq] at ht
    obtain ⟨rfl, rfl⟩ := ht
    simp [lexOne]
  | rbrace =>
    simp only [tokText, List.cons.injEq] at ht
    obtain ⟨rfl, rfl⟩ := ht
    simp [lexOne]
  | lbrack =>
    simp only [tokText, List.cons.injEq] at ht
    obtain ⟨rfl, rfl⟩ := ht
    simp [lexOne]
  | rbrack =>
    simp only [tokText, List.cons.injEq] at ht
    obtain ⟨rfl, rfl⟩ := ht
    simp [lexOne]
  | colon =>
    simp only [tokText, List.cons.injEq] at ht
    obtain ⟨rfl, rfl⟩ := ht
    simp [lexOne]
  | comma =>
    simp only [tokText, List.cons.injEq] at ht
    obtain ⟨rfl, rfl⟩ := ht
    simp [lexOne]
  | tru =>
    simp only [tokText, List.cons.injEq] at ht
    obtain ⟨rfl, rfl⟩ := ht
    simp [lexOne]
  | fls =>
    simp only [tokText, List.cons.injEq] at ht
    obtain ⟨rfl, rfl⟩ := ht
    simp [lexOne]
  | nul =>
    simp only [tokText, List.cons.injEq] at ht
    obtain ⟨rfl, rfl⟩ := ht
    simp [lexOne]
  | str l =>
    simp only [tokText, List.cons.injEq] at ht
    obtain ⟨rfl, rfl⟩ := ht
    have hcomp := lexStr_complete hw s
    simp [lexOne, List.append_assoc, hcomp]
  | num l =>
    simp only [tokText] at ht
    obtain ⟨hne, hall, hshape⟩ := hw
    have hcC : numClass c = true := by
      apply hall
      rw [ht]; exact List.mem_cons_self _ _
    have hrt : ∀ c' ∈ rtext, numClass c' = true := by
      intro c' hc'
      apply hall
      rw [ht]; exact List.mem_cons_of_mem _ hc'
    obtain ⟨hs1, hs2⟩ := takeWhile_head_false (hnum l rfl)
    obtain ⟨n1, n2, n3, n4, n5, n6, n7, n8, n9, n10⟩ := numClass_not_special hcC
    unfold lexOne
    rw [if_neg n1, if_neg n2, if_neg n3, if_neg n4, if_neg n5, if_neg n6,
        if_neg n7, if_neg n8, if_neg n9, if_neg n10, if_pos hcC]
    simp only
    rw [takeWhile_all hrt, dropWhile_all hrt, hs1, hs2, List.append_nil, ← ht,
        if_pos hshape]




lemma ws_of_numClass {c : Char} (h : numClass c = true) : wsChar c = false := by
  by_contra hw
  have hw2 : wsChar c = true := by revert hw; cases wsChar c <;> simp
  have : c = ' ' ∨ c = '\t' ∨ c = '\n' ∨ c = '\r' := by
    revert hw2; simp [wsChar]; tauto
  rcases this with rfl | rfl | rfl | rfl <;> exact absurd h (by decide)

lemma tokText_shape {t : JTok} (hw : wfTok t) :
    ∃ c rt, tokText t = c :: rt ∧ wsChar c = false := by
  cases t with
  | str l => exact ⟨'"', l ++ ['"'], rfl, by decide⟩
  | num l =>
    obtain ⟨hne, hall, _⟩ := hw
    cases hl : l with
    | nil => exact absurd hl hne
    | cons c rt =>
      refine ⟨c, rt, rfl, ?_⟩
      exact ws_of_numClass (hall c (by rw [hl]; exact List.mem_cons_self _ _))
  | lbrace => exact ⟨'{', [], rfl, by decide⟩
  | rbrace => exact ⟨'}', [], rfl, by decide⟩
  | lbrack => exact ⟨'[', [], rfl, by decide⟩
  | rbrack => exact ⟨']', [], rfl, by decide⟩
  | colon => exact ⟨':', [], rfl, by decide⟩
  | comma => exact ⟨',', [], rfl, by decide⟩
  | tru => exact ⟨'t', ['r','u','e'], rfl, by decide⟩
  | fls => exact ⟨'f', ['a','l','s','e'], rfl, by decide⟩
  | nul => exact ⟨'n', ['u','l','l'], rfl, by decide⟩

lemma allWs_takeWhile (l : List Char) : allWs (l.takeWhile (fun c => wsChar c)) := by
  intro c hc
  simpa using mem_takeWhile_pred hc

/-- lexAll decomposition: any lexer success exhibits a lexable span
decomposition. -/
lemma lexAll_spans : ∀ (f : Nat) (s : List Char) (ts : List JTok),
    lexAll f s = some ts → LexSpan ts s := by
  intro f
  induction f with
  | zero => intro s ts h; cases h
  | succ f ih =>
    intro s ts h
    rw [lexAll] at h
    split at h
    next hd =>
      simp only [Option.some.injEq] at h
      subst h
      refine LexSpan.nil ?_
      intro c hc
      by_contra hw
      have hne : s.dropWhile (fun c => wsChar c) ≠ [] := by
        intro hnil
        rw [List.dropWhile_eq_nil_iff] at hnil
        exact hw (hnil c hc)
      exact hne hd
    next c r hd =>
      split at h
      next hlx => cases h
      next t r2 hlx =>
        split at h
        next hrec => cases h
        next ts' hrec =>
          simp only [Option.some.injEq] at h
          subst h
          obtain ⟨he, hwf, hnum⟩ := lexOne_spec hlx
          have hs : s = s.takeWhile (fun c => wsChar c) ++ tokText t ++ r2 := by
            conv_lhs => rw [← List.takeWhile_append_dropWhile
              (p := fun c => wsChar c) (l := s)]
            rw [List.append_assoc]
            congr 1
            rw [← he]
            exact hd
          rw [hs]
          exact LexSpan.cons (allWs_takeWhile s) hwf hnum (ih r2 ts' hrec)

/-- Chop the whitespace residue off a span decomposition. -/
lemma lexspanT_of_lexspan {ts : List JTok} {s : List Char} (h : LexSpan ts s) :
    ∃ sb r, s = sb ++ r ∧ allWs r ∧ LexSpanT ts sb := by
  induction h with
  | nil hr => exact ⟨[], _, rfl, hr, LexSpanT.nil⟩
  | @cons w t ts' s0 hw hwf hnum _ ih =>
    obtain ⟨sb', r', hsplit, hr', hT⟩ := ih
    refine ⟨w ++ tokText t ++ sb', r', by rw [hsplit]; simp, hr', ?_⟩
    refine LexSpanT.cons hw hwf ?_ hT
    intro l hl c2 hc2
    refine hnum l hl c2 ?_
    rw [hsplit]
    cases sb' with
    | nil => cases hc2
    | cons a sb'' => simpa using hc2

lemma lexspan_of_T {ts : List JTok} {s : List Char} (h : LexSpanT ts s) :
    LexSpan ts s := by
  induction h with
  | nil => exact LexSpan.nil (by intro c hc; cases hc)
  | cons hw hwf hnum _ ih => exact LexSpan.cons hw hwf hnum ih

/-- Completeness: a lexable span decomposition re-lexes to the same
tokens, given enough fuel. -/
lemma lexAll_of_spans {ts : List JTok} {s : List Char} (h : LexSpan ts s) :
    ∀ f, ts.length < f → lexAll f s = some ts := by
  induction h with
  | @nil r hr =>
    intro f hf
    obtain ⟨f', rfl⟩ : ∃ f2, f = f2 + 1 := ⟨f - 1, by omega⟩
    rw [lexAll]
    have : dropWs r = [] := by
      rw [dropWs, List.dropWhile_eq_nil_iff]
      intro c hc
      simpa using hr c hc
    rw [this]
  | @cons w t ts' s0 hw hwf hnum _ ih =>
    intro f hf
    obtain ⟨f', rfl⟩ : ∃ f2, f = f2 + 1 := ⟨f - 1, by omega⟩
    rw [lexAll]
    obtain ⟨c, rt, ht, hcws⟩ := tokText_shape hwf
    have hd : dropWs (w ++ tokText t ++ s0) = c :: (rt ++ s0) := by
      rw [dropWs, List.append_assoc, dropWhile_all (by intro x hx; simpa using hw x hx)]
      rw [ht]
      simp [List.dropWhile_cons, hcws]
    rw [hd]
    show (match lexOne c (rt ++ s0) with
      | none => none
      | some (t, r2) =>
        match lexAll f' r2 with
        | none => none
        | some ts => some (t :: ts)) = some (t :: ts')
    rw [lexOne_complete hwf hnum ht]
    show (match lexAll f' s0 with
      | none => none
      | some ts => some (t :: ts)) = some (t :: ts')
    rw [ih f' (by simpa using Nat.lt_of_succ_lt_succ hf)]

lemma tokText_ne_nil {t : JTok} (hw : wfTok t) : tokText t ≠ [] := by
  obtain ⟨c, rt, ht, _⟩ := tokText_shape hw
  rw [ht]; simp

lemma lexspanT_len {ts : List JTok} {s : List Char} (h : LexSpanT ts s) :
    ts.length ≤ s.length := by
  induction h with
  | nil => simp
  | @cons w t ts' s0 _ hwf _ _ ih =>
    have := tokText_ne_nil hwf
    have h1 : 1 ≤ (tokText t).length := by
      cases htt : tokText t with
      | nil => exact absurd htt this
      | cons a l => simp
    simp only [List.length_cons, List.length_append]
    omega

lemma lexspan_wf {ts : List JTok} {s : List Char} (h : LexSpan ts s) :
    ∀ t ∈ ts, wfTok t := by
  induction h with
  | nil _ => intro t ht; cases ht
  | cons _ hwf _ _ ih =>
    intro t' ht'
    rcases List.mem_cons.mp ht' with rfl | hm
    · exact hwf
    · exact ih t' hm

lemma lexspan_chars {ts : List JTok} {s : List Char} (h : LexSpan ts s) :
    ∀ c ∈ s, wsChar c = true ∨ ∃ t ∈ ts, c ∈ tokText t := by
  induction h with
  | nil hr => intro c hc; exact Or.inl (hr c hc)
  | @cons w t ts' s0 hw _ _ _ ih =>
    intro c hc
    simp only [List.append_assoc, List.mem_append] at hc
    rcases hc with hc | hc | hc
    · exact Or.inl (hw c hc)
    · exact Or.inr ⟨t, List.mem_cons_self _ _, hc⟩
    · rcases ih c hc with h | ⟨t', ht', hct⟩
      · exact Or.inl h
      · exact Or.inr ⟨t', List.mem_cons_of_mem _ ht', hct⟩




lemma cleanrel_allWs {a b : List Char} (h : CleanRel a b) (ha : allWs a) : allWs b := by
  induction h with
  | nil => exact ha
  | crlf _ ih =>
    intro c hc
    rcases List.mem_cons.mp hc with rfl | hm
    · decide
    · exact ih (fun x hx => ha x (by simp [hx])) c hm
  | cr _ ih =>
    intro c hc
    rcases List.mem_cons.mp hc with rfl | hm
    · decide
    · exact ih (fun x hx => ha x (by simp [hx])) c hm
  | @keep c0 s t hne _ ih =>
    intro c hc
    rcases List.mem_cons.mp hc with rfl | hm
    · exact ha c (by simp)
    · exact ih (fun x hx => ha x (by simp [hx])) c hm

lemma cleanrel_numhead {a b : List Char} (h : CleanRel a b)
    (ha : ∀ c2, a.head? = some c2 → numClass c2 = false) :
    ∀ c2, b.head? = some c2 → numClass c2 = false := by
  cases h with
  | nil => intro c2 hc2; cases hc2
  | crlf _ =>
    intro c2 hc2
    simp only [List.head?_cons, Option.some.injEq] at hc2
    subst hc2; decide
  | cr _ =>
    intro c2 hc2
    simp only [List.head?_cons, Option.some.injEq] at hc2
    subst hc2; decide
  | keep _ _ =>
    intro c2 hc2
    simp only [List.head?_cons, Option.some.injEq] at hc2
    subst hc2
    exact ha _ rfl

/-- A carriage-return-free block passes through the cleaning relation
verbatim. -/
lemma cleanrel_split_exact :
    ∀ {a y : List Char}, CleanRel a y → ∀ {x s0 : List Char}, a = x ++ s0 →
      '\r' ∉ x → ∃ y0, y = x ++ y0 ∧ CleanRel s0 y0 := by
  intro a y h
  induction h with
  | nil =>
    intro x s0 ha _
    cases x with
    | nil =>
      simp only [List.nil_append] at ha
      exact ⟨[], rfl, ha ▸ CleanRel.nil⟩
    | cons c x' => cases ha
  | @crlf s t h ih =>
    intro x s0 ha hx
    cases x with
    | nil =>
      simp only [List.nil_append] at ha
      exact ⟨'\n' :: t, rfl, ha ▸ CleanRel.crlf h⟩
    | cons c x' =>
      simp only [List.cons_append, List.cons.injEq] at ha
      exact absurd (ha.1 ▸ List.mem_cons_self c x') (ha.1 ▸ hx)
  | @cr s t h ih =>
    intro x s0 ha hx
    cases x with
    | nil =>
      simp only [List.nil_append] at ha
      exact ⟨'\n' :: t, rfl, ha ▸ CleanRel.cr h⟩
    | cons c x' =>
      simp only [List.cons_append, List.cons.injEq] at ha
      exact absurd (ha.1 ▸ List.mem_cons_self c x') (ha.1 ▸ hx)
  | @keep c s t hne h ih =>
    intro x s0 ha hx
    cases x with
    | nil =>
      simp only [List.nil_append] at ha
      exact ⟨c :: t, rfl, ha ▸ CleanRel.keep hne h⟩
    | cons c0 x' =>
      simp only [List.cons_append, List.cons.injEq] at ha
      obtain ⟨hc0, hs⟩ := ha
      subst hc0
      obtain ⟨y0, rfl, hrel⟩ := ih hs (fun hm => hx (List.mem_cons_of_mem _ hm))
      exact ⟨y0, rfl, hrel⟩

/-- The cleaning relation on a whitespace run followed by a block that
is empty or starts with a non-whitespace character: the whitespace run
maps to a whitespace run, the block is cleaned separately. -/
lemma cleanrel_split_ws {x : List Char}
    (hx : ∀ c0, x.head? = some c0 → wsChar c0 = false) :
    ∀ {a y : List Char}, CleanRel a y → ∀ {w : List Char}, a = w ++ x → allWs w →
      ∃ w2 y2, y = w2 ++ y2 ∧ allWs w2 ∧ CleanRel x y2 := by
  intro a y h
  induction h with
  | nil =>
    intro w ha hw
    cases w with
    | nil =>
      simp only [List.nil_append] at ha
      refine ⟨[], [], rfl, ?_, ha ▸ CleanRel.nil⟩
      intro c hc; cases hc
    | cons c w' => cases ha
  | @crlf s t h ih =>
    intro w ha hw
    cases w with
    | nil =>
      exfalso
      simp only [List.nil_append] at ha
      have hh : x.head? = some '\r' := by rw [← ha]; rfl
      exact absurd (hx _ hh) (by decide)
    | cons c w' =>
      simp only [List.cons_append, List.cons.injEq] at ha
      obtain ⟨hc, ha2⟩ := ha
      cases w' with
      | nil =>
        exfalso
        simp only [List.nil_append] at ha2
        have hh : x.head? = some '\n' := by rw [← ha2]; rfl
        exact absurd (hx _ hh) (by decide)
      | cons b w'' =>
        simp only [List.cons_append, List.cons.injEq] at ha2
        obtain ⟨w2, y2, rfl, hw2, hrel⟩ :=
          ih ha2.2 (fun a2 ha3 => hw a2 (by simp [ha3]))
        refine ⟨'\n' :: w2, y2, rfl, ?_, hrel⟩
        intro a2 ha3
        rcases List.mem_cons.mp ha3 with rfl | hm
        · decide
        · exact hw2 a2 hm
  | @cr s t h ih =>
    intro w ha hw
    cases w with
    | nil =>
      exfalso
      simp only [List.nil_append] at ha
      have hh : x.head? = some '\r' := by rw [← ha]; rfl
      exact absurd (hx _ hh) (by decide)
    | cons c w' =>
      simp only [List.cons_append, List.cons.injEq] at ha
      obtain ⟨w2, y2, rfl, hw2, hrel⟩ :=
        ih ha.2 (fun a2 ha3 => hw a2 (by simp [ha3]))
      refine ⟨'\n' :: w2, y2, rfl, ?_, hrel⟩
      intro a2 ha3
      rcases List.mem_cons.mp ha3 with rfl | hm
      · decide
      · exact hw2 a2 hm
  | @keep c s t hne h ih =>
    intro w ha hw
    cases w with
    | nil =>
      simp only [List.nil_append] at ha
      refine ⟨[], c :: t, rfl, ?_, ?_⟩
      · intro a2 ha2; cases ha2
      · rw [← ha]
        exact CleanRel.keep hne h
    | cons c0 w' =>
      simp only [List.cons_append, List.cons.injEq] at ha
      obtain ⟨hc0, hs⟩ := ha
      obtain ⟨w2, y2, rfl, hw2, hrel⟩ :=
        ih hs (fun a2 ha3 => hw a2 (by simp [ha3]))
      refine ⟨c :: w2, y2, rfl, ?_, hrel⟩
      intro a2 ha3
      rcases List.mem_cons.mp ha3 with rfl | hm
      · exact hc0 ▸ hw c0 (by simp)
      · exact hw2 a2 hm




lemma char_eq_del {c : Char} (h : c.toNat = 127) : c = delChar := by
  rw [← Char.ofNat_toNat c, h]
  decide

lemma isDigit_toNat {c : Char} (h : c.isDigit = true) :
    48 ≤ c.toNat ∧ c.toNat ≤ 57 := by
  simp [Char.isDigit] at h
  obtain ⟨h1, h2⟩ := h
  exact ⟨h1, h2⟩

lemma strInner_chars {l : List Char} (h : StrInner l) :
    ∀ c ∈ l, strCharOk c = true ∨ escOk c = true ∨ c = '\\' ∨ c = 'u' ∨ hexDig c = true := by
  induction h with
  | nil => intro c hc; cases hc
  | @uch c0 s hc0 _ ih =>
    intro c hc
    rcases List.mem_cons.mp hc with rfl | hm
    · exact Or.inl hc0
    · exact ih c hm
  | @esc c0 s hc0 _ ih =>
    intro c hc
    rcases List.mem_cons.mp hc with rfl | hm
    · exact Or.inr (Or.inr (Or.inl rfl))
    rcases List.mem_cons.mp hm with rfl | hm2
    · exact Or.inr (Or.inl hc0)
    · exact ih c hm2
  | @uesc a b d e s ha hb hd he _ ih =>
    intro c hc
    rcases List.mem_cons.mp hc with rfl | hm
    · exact Or.inr (Or.inr (Or.inl rfl))
    rcases List.mem_cons.mp hm with rfl | hm
    · exact Or.inr (Or.inr (Or.inr (Or.inl rfl)))
    rcases List.mem_cons.mp hm with rfl | hm
    · exact Or.inr (Or.inr (Or.inr (Or.inr ha)))
    rcases List.mem_cons.mp hm with rfl | hm
    · exact Or.inr (Or.inr (Or.inr (Or.inr hb)))
    rcases List.mem_cons.mp hm with rfl | hm
    · exact Or.inr (Or.inr (Or.inr (Or.inr hd)))
    rcases List.mem_cons.mp hm with rfl | hm
    · exact Or.inr (Or.inr (Or.inr (Or.inr he)))
    · exact ih c hm

lemma escOk_cases {c : Char} (h : escOk c = true) :
    c = '"' ∨ c = '\\' ∨ c = '/' ∨ c = 'b' ∨ c = 'f' ∨ c = 'n' ∨ c = 'r' ∨ c = 't' := by
  revert h; simp [escOk]; tauto

lemma hexDig_printable {c : Char} (h : hexDig c = true) :
    48 ≤ c.toNat ∧ c.toNat ≤ 102 := by
  have h2 : c.isDigit = true ∨ ('a' ≤ c ∧ c ≤ 'f') ∨ ('A' ≤ c ∧ c ≤ 'F') := by
    revert h; simp [hexDig]; tauto
  rcases h2 with h2 | ⟨h3, h4⟩ | ⟨h3, h4⟩
  · have := isDigit_toNat h2; omega
  · simp [Char.le_def] at h3 h4
    have h3' : 97 ≤ c.toNat := h3
    have h4' : c.toNat ≤ 102 := h4
    omega
  · simp [Char.le_def] at h3 h4
    have h3' : 65 ≤ c.toNat := h3
    have h4' : c.toNat ≤ 70 := h4
    omega

lemma numClass_printable {c : Char} (h : numClass c = true) :
    43 ≤ c.toNat ∧ c.toNat ≤ 101 := by
  have h2 : c.isDigit = true ∨ c = '-' ∨ c = '+' ∨ c = '.' ∨ c = 'e' ∨ c = 'E' := by
    revert h; simp [numClass]; tauto
  rcases h2 with h2 | rfl | rfl | rfl | rfl | rfl
  · have := isDigit_toNat h2; omega
  all_goals decide

/-- Characters of a well-formed token text are never stripped by the
chunk cleaning, except possibly the delete character. -/
lemma tok_char_good {t : JTok} (hw : wfTok t) :
    ∀ c ∈ tokText t, strippedCtl c = false ∨ c = delChar := by
  have hnum : ∀ c : Char, numClass c = true → strippedCtl c = false := by
    intro c hc
    obtain ⟨h1, h2⟩ := numClass_printable hc
    simp only [strippedCtl, Bool.or_eq_false_iff, Bool.and_eq_false_iff,
      decide_eq_false_iff_not]
    omega
  cases t with
  | num l =>
    intro c hc
    exact Or.inl (hnum c (hw.2.1 c hc))
  | str l =>
    intro c hc
    rcases List.mem_cons.mp hc with rfl | hm
    · exact Or.inl (by decide)
    rcases List.mem_append.mp hm with hm2 | hm2
    · rcases strInner_chars hw c hm2 with h | h | rfl | rfl | h
      · simp only [strCharOk, Bool.and_eq_true, decide_eq_true_eq] at h
        by_cases h127 : c.toNat = 127
        · exact Or.inr (char_eq_del h127)
        · refine Or.inl ?_
          simp only [strippedCtl, Bool.or_eq_false_iff, Bool.and_eq_false_iff,
            decide_eq_false_iff_not]
          omega
      · rcases escOk_cases h with rfl | rfl | rfl | rfl | rfl | rfl | rfl | rfl <;>
          exact Or.inl (by decide)
      · exact Or.inl (by decide)
      · exact Or.inl (by decide)
      · obtain ⟨h1, h2⟩ := hexDig_printable h
        refine Or.inl ?_
        simp only [strippedCtl, Bool.or_eq_false_iff, Bool.and_eq_false_iff,
          decide_eq_false_iff_not]
        omega
    · fin_cases hm2
      exact Or.inl (by decide)
  | lbrace => intro c hc; fin_cases hc; exact Or.inl (by decide)
  | rbrace => intro c hc; fin_cases hc; exact Or.inl (by decide)
  | lbrack => intro c hc; fin_cases hc; exact Or.inl (by decide)
  | rbrack => intro c hc; fin_cases hc; exact Or.inl (by decide)
  | colon => intro c hc; fin_cases hc; exact Or.inl (by decide)
  | comma => intro c hc; fin_cases hc; exact Or.inl (by decide)
  | tru => intro c hc; fin_cases hc <;> exact Or.inl (by decide)
  | fls => intro c hc; fin_cases hc <;> exact Or.inl (by decide)
  | nul => intro c hc; fin_cases hc <;> exact Or.inl (by decide)

lemma ws_not_stripped {c : Char} (h : wsChar c = true) : strippedCtl c = false := by
  have h2 : c = ' ' ∨ c = '\t' ∨ c = '\n' ∨ c = '\r' := by
    revert h; simp [wsChar]; tauto
  rcases h2 with rfl | rfl | rfl | rfl <;> decide

/-- In a lexable string that contains no delete character, no character
is stripped by the chunk cleaning. -/
lemma chars_good {ts : List JTok} {s : List Char} (h : LexSpan ts s)
    (hdel : delChar ∉ s) : ∀ c ∈ s, strippedCtl c = false := by
  intro c hc
  rcases lexspan_chars h c hc with hw | ⟨t, ht, hct⟩
  · exact ws_not_stripped hw
  · rcases tok_char_good (lexspan_wf h t ht) c hct with h1 | rfl
    · exact h1
    · exact absurd hc hdel

lemma tokText_no_cr {t : JTok} (hw : wfTok t) : '\r' ∉ tokText t := by
  intro hm
  cases t with
  | num l => exact absurd (hw.2.1 _ hm) (by decide)
  | str l =>
    rcases List.mem_cons.mp hm with h | h
    · exact absurd h (by decide)
    rcases List.mem_append.mp h with h2 | h2
    · rcases strInner_chars hw _ h2 with h3 | h3 | h3 | h3 | h3
      · exact absurd h3 (by decide)
      · exact absurd h3 (by decide)
      · exact absurd h3 (by decide)
      · exact absurd h3 (by decide)
      · exact absurd h3 (by decide)
    · exact absurd (List.mem_singleton.mp h2) (by decide)
  | lbrace => revert hm; decide
  | rbrace => revert hm; decide
  | lbrack => revert hm; decide
  | rbrack => revert hm; decide
  | colon => revert hm; decide
  | comma => revert hm; decide
  | tru => revert hm; decide
  | fls => revert hm; decide
  | nul => revert hm; decide

/-- The cleaning relation transports lexable span decompositions. -/
lemma cleanrel_lexspan {ts : List JTok} {s : List Char} (h : LexSpan ts s) :
    ∀ {s2 : List Char}, CleanRel s s2 → LexSpan ts s2 := by
  induction h with
  | nil hr =>
    intro s2 hc
    exact LexSpan.nil (cleanrel_allWs hc hr)
  | @cons w t ts' s0 hw hwf hnum _ ih =>
    intro s2 hc
    obtain ⟨c0, rt, ht, hc0⟩ := tokText_shape hwf
    have hx : ∀ a, (tokText t ++ s0).head? = some a → wsChar a = false := by
      intro a ha
      rw [ht] at ha
      simp only [List.cons_append, List.head?_cons, Option.some.injEq] at ha
      subst ha
      exact hc0
    rw [List.append_assoc] at hc
    obtain ⟨w2, y2, rfl, hw2, hrel⟩ := cleanrel_split_ws hx hc rfl hw
    obtain ⟨y0, rfl, hrel0⟩ := cleanrel_split_exact hrel rfl (tokText_no_cr hwf)
    rw [← List.append_assoc]
    refine LexSpan.cons hw2 hwf ?_ (ih hrel0)
    intro l hl
    exact cleanrel_numhead hrel0 (hnum l hl)

lemma cleanrel_append {a b c d : List Char} (h1 : CleanRel a b) (h2 : CleanRel c d) :
    CleanRel (a ++ c) (b ++ d) := by
  induction h1 with
  | nil => exact h2
  | crlf _ ih => exact CleanRel.crlf ih
  | cr _ ih => exact CleanRel.cr ih
  | keep hne _ ih => exact CleanRel.keep hne ih

/-- Every string is related to its carriage-return normalization. -/
lemma cleanrel_clean (l : List Char) : CleanRel l (replaceCR (replaceCRLF l)) := by
  have H : ∀ n (l : List Char), l.length ≤ n → CleanRel l (replaceCR (replaceCRLF l)) := by
    intro n
    induction n with
    | zero =>
      intro l hl
      have hnil : l = [] := by cases l with
        | nil => rfl
        | cons c r => simp at hl
      subst hnil
      exact CleanRel.nil
    | succ n ih =>
      intro l hl
      rw [replaceCRLF.eq_def]
      split
      · next r =>
        show CleanRel ('\r' :: '\n' :: r) ('\n' :: replaceCR (replaceCRLF r))
        refine CleanRel.crlf (ih r ?_)
        simp only [List.length_cons] at hl
        omega
      · next c r hne =>
        show CleanRel (c :: r) ((if c = '\r' then '\n' else c) :: replaceCR (replaceCRLF r))
        have hr : r.length ≤ n := by
          simp only [List.length_cons] at hl
          omega
        by_cases hc : c = '\r'
        · subst hc
          rw [if_pos rfl]
          exact CleanRel.cr (ih r hr)
        · rw [if_neg hc]
          exact CleanRel.keep hc (ih r hr)
      · exact CleanRel.nil
  exact H l.length l le_rfl

/-- Characters produced by the cleaning relation come from the source
string or are the newline substituted for a carriage return. -/
lemma cleanrel_mem {a b : List Char} (h : CleanRel a b) :
    ∀ c ∈ b, c ∈ a ∨ c = '\n' := by
  induction h with
  | nil => intro c hc; cases hc
  | crlf _ ih =>
    intro c hc
    rcases List.mem_cons.mp hc with rfl | hm
    · exact Or.inr rfl
    · rcases ih c hm with h | h
      · exact Or.inl (by simp [h])
      · exact Or.inr h
  | cr _ ih =>
    intro c hc
    rcases List.mem_cons.mp hc with rfl | hm
    · exact Or.inr rfl
    · rcases ih c hm with h | h
      · exact Or.inl (by simp [h])
      · exact Or.inr h
  | keep _ _ ih =>
    intro c hc
    rcases List.mem_cons.mp hc with rfl | hm
    · exact Or.inl (by simp)
    · rcases ih c hm with h | h
      · exact Or.inl (by simp [h])
      · exact Or.inr h

lemma stripCSIF_id {l : List Char} (h : '\x1b' ∉ l) : ∀ f, stripCSIF f l = l := by
  induction l with
  | nil => intro f; cases f <;> rfl
  | cons c r ih =>
    intro f
    cases f with
    | zero => rfl
    | succ f' =>
      have hc : c ≠ '\x1b' := fun he => h (by simp [he])
      rw [stripCSIF.eq_def]
      simp only [if_neg hc]
      rw [ih (fun hm => h (List.mem_cons_of_mem _ hm)) f']

lemma stripOSCF_id {l : List Char} (h : '\x1b' ∉ l) : ∀ f, stripOSCF f l = l := by
  induction l with
  | nil => intro f; cases f <;> rfl
  | cons c r ih =>
    intro f
    cases f with
    | zero => rfl
    | succ f' =>
      have hc : c ≠ '\x1b' := fun he => h (by simp [he])
      rw [stripOSCF.eq_def]
      simp only [if_neg hc]
      rw [ih (fun hm => h (List.mem_cons_of_mem _ hm)) f']

/-- On a chunk containing no stripped control characters, the full chunk
cleaning is exactly the carriage-return normalization. -/
lemma cleanChunk_eq {chunk : List Char} (h : ∀ c ∈ chunk, strippedCtl c = false) :
    cleanChunk chunk = replaceCR (replaceCRLF chunk) := by
  have hm : ∀ c ∈ replaceCR (replaceCRLF chunk), strippedCtl c = false := by
    intro c hc
    rcases cleanrel_mem (cleanrel_clean chunk) c hc with h2 | rfl
    · exact h c h2
    · decide
  have hesc : '\x1b' ∉ replaceCR (replaceCRLF chunk) := by
    intro hmem
    exact absurd (hm _ hmem) (by decide)
  rw [cleanChunk, stripCSI, stripCSIF_id hesc]
  rw [stripOSC, stripOSCF_id hesc]
  rw [stripCtl, List.filter_eq_self.mpr]
  intro c hc
  simp [hm c hc]

/-- The accumulated buffer across feeds is the cleaning of the joined
chunks, chunk by chunk. -/
lemma cleanrel_join {chunks : List (List Char)}
    (h : ∀ ch ∈ chunks, ∀ c ∈ ch, strippedCtl c = false) :
    CleanRel chunks.join ((chunks.map cleanChunk).join) := by
  induction chunks with
  | nil => exact CleanRel.nil
  | cons ch rest ih =>
    simp only [List.join_cons, List.map_cons]
    refine cleanrel_append ?_ (ih (fun ch2 h2 => h ch2 (by simp [h2])))
    rw [cleanChunk_eq (h ch (by simp))]
    exact cleanrel_clean ch


end OW
